import Mathlib

/-!
Quijote reader: pagination and position tracking.

A shallow embedding of the text-extraction and pagination core of `main.go`.

Modelling conventions:
* a Go `string` is modelled by its sequence of runes, `Str = List Char`
  (the text is assumed to be valid UTF-8); `len(s)` is the UTF-8 byte length `byteLen s`;
  `stripTags` is also modelled on raw bytes, `Bytes`, valid UTF-8 or not;
* a Go `int` is modelled by `Int` (values are assumed to stay within the 64-bit range,
  which holds for every length and page count that fits in memory);
* a slice is a `List`; a function that may panic or loop forever returns an `Option`.
-/

namespace Quijote

/-! ## Data model -/

/-- Go strings, as sequences of runes. -/
abbrev Str := List Char

/-- Record `Chapter` of `main.go`. -/
structure Chapter where
  Title : Str
  Anchor : Str
  Text : Str
  StartPage : Int
deriving DecidableEq, Repr

/-- Record `Book` of `main.go`. -/
structure Book where
  Chapters : List Chapter
  Pages : List Str
deriving DecidableEq, Repr

/-- Record `State` of `main.go`. -/
structure State where
  Chapter : Int
  Page : Int
deriving DecidableEq, Repr

/-! ## Position tracker: `chapterIndexForPage` -/

/-- The `for i := range chapters` loop of `chapterIndexForPage`: `i` is the index of the
head of the remaining chapters, `idx` the current value of the variable `idx`. -/
def chapterIndexLoop (page : Int) : List Chapter → Nat → Nat → Nat
  | [], _, idx => idx
  | c :: rest, i, idx =>
    if c.StartPage > page then idx else chapterIndexLoop page rest (i + 1) i

/-- Function `chapterIndexForPage` of `main.go`. -/
def chapterIndexForPage (chapters : List Chapter) (page : Int) : Nat :=
  if chapters.length = 0 then 0 else chapterIndexLoop page chapters 0 0

/-! ## Position tracker: `remapPage`

`remapPage` computes in `float64`.  A finite `float64` is modelled exactly, as a sign, a
natural mantissa and a binary exponent; every operation rounds the exact rational result
to the nearest value with a 53-bit significand, ties to even (IEEE 754 binary64).
For 64-bit integer inputs no overflow to infinity and no subnormal result can occur in
`remapPage`, so the exponent is left unbounded. -/

/-- A finite `float64`: the value `(-1)^neg * mant * 2^exp`. -/
structure F64 where
  neg : Bool
  mant : Nat
  exp : Int
deriving DecidableEq, Repr

/-- Nearest integer to `n / d`, ties to even (`d > 0`). -/
def roundHalfEven (n d : Nat) : Nat :=
  let q := n / d
  let r := n % d
  if 2 * r < d then q
  else if d < 2 * r then q + 1
  else if q % 2 = 0 then q else q + 1

/-- Loop computing `⌊log2 n⌋` by repeated halving (`0` for `n < 2`). -/
def log2Loop : Nat → Nat → Nat
  | 0, _ => 0
  | fuel + 1, n => if n < 2 then 0 else log2Loop fuel (n / 2) + 1

/-- The position of the leading bit of `n`: `⌊log2 n⌋` for `n > 0`. -/
def ilog2 (n : Nat) : Nat := log2Loop n n

/-- Round the non-negative rational `n / d` (`d > 0`) to binary64: the result has a
significand of at most 53 bits. -/
def roundF64 (neg : Bool) (n d : Nat) : F64 :=
  if n = 0 then ⟨neg, 0, 0⟩
  else
    let k : Int := (ilog2 n : Int) - (ilog2 d : Int)
    -- `fl = ⌊log2 (n / d)⌋`, which is `k` or `k - 1`
    let fl : Int := if d * 2 ^ k.toNat ≤ n * 2 ^ (-k).toNat then k else k - 1
    let e : Int := fl - 52
    ⟨neg, roundHalfEven (n * 2 ^ (-e).toNat) (d * 2 ^ e.toNat), e⟩

/-- Conversion `float64(i)` of an `int`. -/
def F64.ofInt (i : Int) : F64 :=
  roundF64 (decide (i < 0)) i.natAbs 1

/-- Division `x / y` in `float64` (`y` non-zero). -/
def F64.div (x y : F64) : F64 :=
  let s : Int := x.exp - y.exp
  roundF64 (xor x.neg y.neg) (x.mant * 2 ^ s.toNat) (y.mant * 2 ^ (-s).toNat)

/-- Multiplication `x * y` in `float64`. -/
def F64.mul (x y : F64) : F64 :=
  let s : Int := x.exp + y.exp
  roundF64 (xor x.neg y.neg) (x.mant * y.mant * 2 ^ s.toNat) (2 ^ (-s).toNat)

/-- Conversion `int(x)` of a `float64`: truncation toward zero.  A value outside the
64-bit range converts to the minimum integer, as on amd64 (Go leaves it
implementation-defined). -/
def F64.toInt (x : F64) : Int :=
  let a : Nat := x.mant * 2 ^ x.exp.toNat / 2 ^ (-x.exp).toNat
  let t : Int := if x.neg then -(a : Int) else (a : Int)
  if -(2 : Int) ^ 63 ≤ t ∧ t < (2 : Int) ^ 63 then t else -(2 : Int) ^ 63

/-- Function `remapPage` of `main.go`. -/
def remapPage (oldPage oldTotal newTotal : Int) : Int :=
  if oldTotal ≤ 0 ∨ newTotal ≤ 0 then 0
  else
    let progress := F64.div (F64.ofInt oldPage) (F64.ofInt oldTotal)
    let newPage := F64.toInt (F64.mul progress (F64.ofInt newTotal))
    let newPage := if newPage < 0 then 0 else newPage
    let newPage := if newPage ≥ newTotal then newTotal - 1 else newPage
    newPage

/-! ## Strings: the library functions used by the paginator -/

/-- Function `len` on strings: the number of bytes of the UTF-8 encoding. -/
def byteLen (s : Str) : Nat := (s.map Char.utf8Size).sum

/-- Function `unicode.IsSpace`: the white-space runes. -/
def isSpace (c : Char) : Bool :=
  let n := c.toNat
  decide (n = 0x09 ∨ n = 0x0A ∨ n = 0x0B ∨ n = 0x0C ∨ n = 0x0D ∨ n = 0x20 ∨ n = 0x85 ∨
    n = 0xA0 ∨ n = 0x1680 ∨ (0x2000 ≤ n ∧ n ≤ 0x200A) ∨ n = 0x2028 ∨ n = 0x2029 ∨
    n = 0x202F ∨ n = 0x205F ∨ n = 0x3000)

/-- Function `strings.TrimSpace`: remove leading and trailing white space. -/
def trimSpace (s : Str) : Str := (s.dropWhile isSpace).rdropWhile isSpace

/-- Put a rune in front of the first piece of a list of pieces. -/
def consHead (c : Char) : List Str → List Str
  | [] => [[c]]
  | l :: ls => (c :: l) :: ls

/-- Cut a string at every rune satisfying `p` (the rune is dropped); the result is
never empty. -/
def splitWhere (p : Char → Bool) : Str → List Str
  | [] => [[]]
  | c :: rest => if p c then [] :: splitWhere p rest else consHead c (splitWhere p rest)

/-- Call `strings.Split(s, "\n")`. -/
def splitLines (s : Str) : List Str := splitWhere (fun c => c == '\n') s

/-- Function `strings.Fields`: the maximal runs of non-space runes. -/
def fields (s : Str) : List Str := (splitWhere isSpace s).filter (fun w => !w.isEmpty)

/-- Constant `paragraphBreak`. -/
def paragraphBreak : Str := ['\n', '\n']

/-- Call `strings.Split(s, paragraphBreak)`: cut at the successive non-overlapping
occurrences of two line feeds, scanning from the left. -/
def splitParagraphs : Str → List Str
  | [] => [[]]
  | [c] => [[c]]
  | c :: d :: rest =>
    if c = '\n' ∧ d = '\n' then [] :: splitParagraphs rest
    else consHead c (splitParagraphs (d :: rest))

/-- Function `strings.Join`. -/
def join (parts : List Str) (sep : Str) : Str := sep.intercalate parts

/-- Slice expression `xs[i:j]` for `0 ≤ i ≤ j ≤ len(xs)`. -/
def slice {α : Type} (xs : List α) (i j : Nat) : List α := (xs.drop i).take (j - i)

/-! ## Paginator -/

/-- The `for _, w := range words` loop of `wrapParagraph`: `b` is the content of the
builder and `lineLen` the variable of that name. -/
def wrapLoop (width : Int) : List Str → Str → Int → Str
  | [], b, _ => b
  | w :: ws, b, lineLen =>
    if lineLen = 0 then wrapLoop width ws (b ++ w) (byteLen w)
    else if lineLen + 1 + byteLen w > width then
      wrapLoop width ws (b ++ '\n' :: w) (byteLen w)
    else wrapLoop width ws (b ++ ' ' :: w) (lineLen + 1 + byteLen w)

/-- Function `wrapParagraph` of `main.go`. -/
def wrapParagraph (text : Str) (width : Int) : Str :=
  let words := fields text
  if words.length = 0 then [] else wrapLoop width words [] 0

/-- Body of the `for _, p := range parts` loop of `wrapText`. -/
def wrapTextStep (width : Int) (out : List Str) (p : Str) : List Str :=
  let p := trimSpace p
  if p = [] then out else out ++ [wrapParagraph p width]

/-- Function `wrapText` of `main.go`. -/
def wrapText (text : Str) (width : Int) : Str :=
  let parts := splitParagraphs text
  let out := parts.foldl (wrapTextStep width) []
  join out paragraphBreak

/-- The `for i := 0; i < len(lines); i += linesPerPage` loop of `paginate`.  The loop
never ends when `linesPerPage = 0` and the slice expression `lines[i:end]` panics when
`linesPerPage < 0`: both give `none` (`fuel` bounds the number of iterations). -/
def paginateLoop (lines : List Str) (linesPerPage : Int) : Nat → Int → List Str →
    Option (List Str)
  | 0, _, _ => none
  | fuel + 1, i, pages =>
    if i < lines.length then
      let stop : Int := if i + linesPerPage > lines.length then lines.length else i + linesPerPage
      if 0 ≤ i ∧ i ≤ stop then
        let page := join (slice lines i.toNat stop.toNat) ['\n']
        paginateLoop lines linesPerPage fuel (i + linesPerPage) (pages ++ [trimSpace page])
      else none
    else some pages

/-- Function `paginate` of `main.go`.  With `linesPerPage ≥ 1` every iteration consumes at
least one line, so `len(lines) + 1` iterations are enough. -/
def paginate (text : Str) (linesPerPage lineWidth : Int) : Option (List Str) :=
  if trimSpace text = [] then some []
  else
    let wrapped := wrapText text lineWidth
    let lines := splitLines wrapped
    paginateLoop lines linesPerPage (lines.length + 1) 0 []

/-- The page-source text of a chapter: `strings.TrimSpace(header + chapters[i].Text)` with
`header = fmt.Sprintf("%s\n\n", chapters[i].Title)`. -/
def pageSource (ch : Chapter) : Str := trimSpace ((ch.Title ++ ['\n', '\n']) ++ ch.Text)

/-- The `for i := range chapters` loop of `buildBookPagesForSize`: `pages` is the
accumulated page sequence, `done` the chapters already stamped. -/
def buildLoop (width lines : Int) : List Chapter → List Str → List Chapter →
    Option (List Str × List Chapter)
  | [], pages, done => some (pages, done)
  | ch :: rest, pages, done =>
    let ch := { ch with StartPage := (pages.length : Int) }
    match paginate (pageSource ch) lines width with
    | none => none
    | some chapterPages => buildLoop width lines rest (pages ++ chapterPages) (done ++ [ch])

/-- Function `buildBookPagesForSize` of `main.go`. -/
def buildBookPagesForSize (chapters : List Chapter) (width lines : Int) :
    Option (List Str × List Chapter) :=
  let width := if width < 20 then 20 else width
  let lines := if lines < 5 then 5 else lines
  buildLoop width lines chapters [] []

/-! ## Markup cleaner: `stripTags`

`stripTags` receives the raw bytes of the file, which need not be valid UTF-8, so it is
modelled on bytes: `for _, r := range input` decodes one rune at a time, every byte that
does not start a valid encoding being read as U+FFFD, and `WriteRune` appends the UTF-8
encoding of a rune. -/

/-- A Go string as the sequence of its bytes (numbers below 256). -/
abbrev Bytes := List Nat

/-- Constant `utf8.RuneError`, U+FFFD. -/
def runeError : Char := Char.ofNat 0xFFFD

/-- Function `utf8.AppendRune` (used by `WriteRune`): the UTF-8 encoding of a rune. -/
def encodeRune (c : Char) : Bytes :=
  let n := c.toNat
  if n < 0x80 then [n]
  else if n < 0x800 then [0xC0 + n / 64, 0x80 + n % 64]
  else if n < 0x10000 then [0xE0 + n / 4096, 0x80 + n / 64 % 64, 0x80 + n % 64]
  else [0xF0 + n / 262144, 0x80 + n / 4096 % 64, 0x80 + n / 64 % 64, 0x80 + n % 64]

/-- The bytes of a string given by its runes. -/
def encodeString (s : Str) : Bytes := s.flatMap encodeRune

/-- The rune that a `range` loop reads at the start of a non-empty string, and the number
of bytes it takes (function `utf8.DecodeRuneInString`): a valid encoding gives its rune;
anything else gives U+FFFD and one byte.  The second byte of a three-byte encoding must
lie in `[A0, BF]` after `E0` (no overlong form) and in `[80, 9F]` after `ED` (no
surrogate); the second byte of a four-byte encoding in `[90, BF]` after `F0` and in
`[80, 8F]` after `F4`. -/
def decodeRune : Bytes → Char × Nat
  | [] => (runeError, 0)
  | s0 :: rest =>
    if s0 < 0x80 then (Char.ofNat s0, 1)
    else if s0 < 0xC2 ∨ 0xF4 < s0 then (runeError, 1)
    else if s0 < 0xE0 then
      match rest with
      | s1 :: _ =>
        if 0x80 ≤ s1 ∧ s1 ≤ 0xBF then (Char.ofNat (s0 % 32 * 64 + s1 % 64), 2)
        else (runeError, 1)
      | _ => (runeError, 1)
    else if s0 < 0xF0 then
      let lo := if s0 = 0xE0 then 0xA0 else 0x80
      let hi := if s0 = 0xED then 0x9F else 0xBF
      match rest with
      | s1 :: s2 :: _ =>
        if lo ≤ s1 ∧ s1 ≤ hi ∧ 0x80 ≤ s2 ∧ s2 ≤ 0xBF then
          (Char.ofNat (s0 % 16 * 4096 + s1 % 64 * 64 + s2 % 64), 3)
        else (runeError, 1)
      | _ => (runeError, 1)
    else
      let lo := if s0 = 0xF0 then 0x90 else 0x80
      let hi := if s0 = 0xF4 then 0x8F else 0xBF
      match rest with
      | s1 :: s2 :: s3 :: _ =>
        if lo ≤ s1 ∧ s1 ≤ hi ∧ 0x80 ≤ s2 ∧ s2 ≤ 0xBF ∧ 0x80 ≤ s3 ∧ s3 ≤ 0xBF then
          (Char.ofNat (s0 % 8 * 262144 + s1 % 64 * 4096 + s2 % 64 * 64 + s3 % 64), 4)
        else (runeError, 1)
      | _ => (runeError, 1)

/-- The runes read by `for _, r := range s`.  Every step takes at least one byte, so
`len(s)` units of fuel are enough. -/
def rangeRunes : Nat → Bytes → List Char
  | 0, _ => []
  | _ + 1, [] => []
  | fuel + 1, b :: s =>
    let (r, size) := decodeRune (b :: s)
    r :: rangeRunes fuel ((b :: s).drop size)

/-- The `for _, r := range input` loop of `stripTags`: `inTag` is the variable of that
name and `b` the content of the builder.  Every step takes at least one byte, so
`len(input)` units of fuel are enough. -/
def stripLoop : Nat → Bytes → Bool → Bytes → Bytes
  | 0, _, _, b => b
  | _ + 1, [], _, b => b
  | fuel + 1, x :: s, inTag, b =>
    let (r, size) := decodeRune (x :: s)
    let rest := (x :: s).drop size
    if r = '<' then stripLoop fuel rest true b
    else if r = '>' then stripLoop fuel rest false b
    else if !inTag then stripLoop fuel rest inTag (b ++ encodeRune r)
    else stripLoop fuel rest inTag b

/-- Function `stripTags` of `main.go`. -/
def stripTags (input : Bytes) : Bytes := stripLoop input.length input false []

/-- The loop of `stripTags` on the runes of a valid UTF-8 string (`stripTags_encodeString`
relates it to the loop on bytes): the builder holds runes. -/
def stripRunes : Str → Bool → Str → Str
  | [], _, b => b
  | r :: rest, inTag, b =>
    if r = '<' then stripRunes rest true b
    else if r = '>' then stripRunes rest false b
    else if !inTag then stripRunes rest inTag (b ++ [r])
    else stripRunes rest inTag b

/-- Function `stripTags` of `main.go` on a valid UTF-8 string, given and returned as
runes. -/
def stripTagsText (input : Str) : Str := stripRunes input false []

/-- Tag stripping as the specification words it (not the code): every span running from a
`<` through the next `>` is removed, an unclosed `<` removes everything after it, and every
rune outside such spans is kept.  `inSpan` tells whether the scan is inside a span. -/
def removeSpans : Bool → Str → Str
  | _, [] => []
  | false, c :: rest => if c = '<' then removeSpans true rest else c :: removeSpans false rest
  | true, c :: rest => if c = '>' then removeSpans false rest else removeSpans true rest

/-! ## Markup cleaner: `cleanInlineText` and `cleanHTMLToText`

The regular expressions are modelled by the matchers they denote.  Each of them has, at a
given start position, at most one way to match, so the first match found by Go's
leftmost-first search is the one computed here. -/

/-- Remove the literal `lit` from the front of `s`, if `s` starts with it. -/
def dropLit : Str → Str → Option Str
  | [], s => some s
  | _ :: _, [] => none
  | c :: lit, d :: s => if c = d then dropLit lit s else none

/-- The loop of `ReplaceAllString` and of `strings.ReplaceAll`: scanning from the left,
every match found by `matchAt` (which returns the text after the match) is replaced by
`repl` and the scan goes on after it.  A match is never empty, so `len(s) + 1` units of
fuel are enough. -/
def replaceLoop (matchAt : Str → Option Str) (repl : Str) : Nat → Str → Str
  | 0, s => s
  | _ + 1, [] => []
  | fuel + 1, c :: s =>
    match matchAt (c :: s) with
    | some rest => repl ++ replaceLoop matchAt repl fuel rest
    | none => c :: replaceLoop matchAt repl fuel s

/-- Function `strings.ReplaceAll` for a non-empty `old`. -/
def replaceAll (s old new : Str) : Str := replaceLoop (dropLit old) new (s.length + 1) s

/-- The class `\s` of Go regular expressions: tab, line feed, form feed, carriage return,
space. -/
def isReSpace (c : Char) : Bool :=
  c = '\t' ∨ c = '\n' ∨ c = '\x0c' ∨ c = '\r' ∨ c = ' '

/-- The class `\w` of Go regular expressions. -/
def isWordChar (c : Char) : Bool :=
  c.isAlphanum ∨ c = '_'

/-- Remove `lit` from the front of `s`, comparing letters without regard to case (flag
`(?i)`; the tags used have only letters whose case folding is the ASCII one). -/
def dropLitFold : Str → Str → Option Str
  | [], s => some s
  | _ :: _, [] => none
  | c :: lit, d :: s => if c.toLower = d.toLower then dropLitFold lit s else none

/-- A match of the pattern of `replaceAllTag` for `tag` at the start of `s`: a `<`, white
space, the tag in any case, a word boundary, anything but `>`, and a `>`.  The result is
the text after the match.  Every tag used ends in a letter, so the word boundary asks for
the end of the text or a rune that is not a word rune. -/
def matchTagAt (tag : Str) (s : Str) : Option Str :=
  match s with
  | [] => none
  | c :: s1 =>
    if c = '<' then
      match dropLitFold tag (s1.dropWhile isReSpace) with
      | none => none
      | some s3 =>
        let boundary : Bool :=
          match s3 with
          | [] => true
          | d :: _ => !isWordChar d
        if boundary then
          match s3.dropWhile (fun d => d != '>') with
          | [] => none
          | _ :: rest => some rest
        else none
    else none

/-- Function `replaceAllTag` of `main.go`. -/
def replaceAllTag (input tag replacement : Str) : Str :=
  replaceLoop (matchTagAt tag) replacement (input.length + 1) input

/-- Function `html.UnescapeString` of the Go library: a string without `&` is returned
unchanged; otherwise the entities are decoded, which is left to the function `ent`
(library code, a parameter of the model). -/
def unescapeString (ent : Str → Str) (s : Str) : Str :=
  if s.contains '&' then ent s else s

/-- Function `compactSpaces` of `main.go`. -/
def compactSpaces (input : Str) : Str :=
  let fs := fields input
  if fs.length = 0 then [] else join fs [' ']

/-- A match of the pattern of `normalizeWhitespace` (three or more line feeds, as many as
possible) at the start of `s`. -/
def matchNewlines (s : Str) : Option Str :=
  let run := s.takeWhile (fun c => c == '\n')
  if 3 ≤ run.length then some (s.drop run.length) else none

/-- Function `normalizeWhitespace` of `main.go`. -/
def normalizeWhitespace (input : Str) : Str :=
  let lines := splitLines input
  let lines := lines.map (fun line => trimSpace (compactSpaces line))
  let output := join lines ['\n']
  let output := replaceLoop matchNewlines paragraphBreak (output.length + 1) output
  trimSpace output

/-- Function `cleanInlineText` of `main.go`, on valid UTF-8 text (`stripTagsText` is
`stripTags` on such text). -/
def cleanInlineText (ent : Str → Str) (input : Str) : Str :=
  let text := stripTagsText input
  let text := unescapeString ent text
  trimSpace text

/-- Function `cleanHTMLToText` of `main.go`, on valid UTF-8 text. -/
def cleanHTMLToText (ent : Str → Str) (input : Str) : Str :=
  let normalized := replaceAll input ['\r', '\n'] ['\n']
  let normalized := replaceAll normalized ['\r'] ['\n']
  let normalized := replaceAllTag normalized "br".toList ['\n']
  let normalized := replaceAllTag normalized "/p".toList paragraphBreak
  let normalized := replaceAllTag normalized "p".toList []
  let normalized := replaceAllTag normalized "hr".toList ['\n']
  let text := stripTagsText normalized
  let text := unescapeString ent text
  let text := normalizeWhitespace text
  text

/-! ## Chapter extractor: `loadChapters` -/

/-- The text `<h3><a name="` that opens a chapter marker. -/
def openLit : Str := "<h3><a name=\"".toList

/-- The text `"></a>` between the anchor and the title of a marker. -/
def midLit : Str := "\"></a>".toList

/-- The text `</h3>` that closes a marker. -/
def closeLit : Str := "</h3>".toList

/-- The first occurrence of `lit` in `s`: what stands before it and what stands after. -/
def findLit (lit : Str) : Str → Option (Str × Str)
  | [] => (dropLit lit []).map (fun r => ([], r))
  | c :: s =>
    match dropLit lit (c :: s) with
    | some r => some ([], r)
    | none =>
      match findLit lit s with
      | some (before, r) => some (c :: before, r)
      | none => none

/-- A match of the pattern `(?s)<h3><a name="([^"]+)"></a>(.*?)</h3>` at the start of
`s`: the anchor (group 1, the longest run without `"`, not empty), the title (group 2, the
shortest text followed by `</h3>`) and the text after the match. -/
def matchMarkerAt (s : Str) : Option (Str × Str × Str) :=
  match dropLit openLit s with
  | none => none
  | some r1 =>
    let anchor := r1.takeWhile (fun c => c != '"')
    if anchor = [] then none
    else
      match dropLit midLit (r1.dropWhile (fun c => c != '"')) with
      | none => none
      | some r2 =>
        match findLit closeLit r2 with
        | none => none
        | some (title, rest) => some (anchor, title, rest)

/-- The leftmost match of the marker pattern in `s`: the text before it, the anchor, the
title and the text after it. -/
def findNext : Str → Option (Str × Str × Str × Str)
  | [] => none
  | c :: s =>
    match matchMarkerAt (c :: s) with
    | some (anchor, title, rest) => some ([], anchor, title, rest)
    | none =>
      match findNext s with
      | some (gap, anchor, title, rest) => some (c :: gap, anchor, title, rest)
      | none => none

/-- One element of the result of `FindAllSubmatchIndex`: the offsets `m[0]`, ..., `m[5]`
of the match, of group 1 and of group 2. -/
structure Submatch where
  m0 : Nat
  m1 : Nat
  m2 : Nat
  m3 : Nat
  m4 : Nat
  m5 : Nat
deriving DecidableEq, Repr

/-- The successive non-overlapping matches of the marker pattern in `s`, the text that
starts at offset `pos` of the document.  Every match is non-empty, so `len(s) + 1` units
of fuel are enough. -/
def findAllLoop : Nat → Nat → Str → List Submatch
  | 0, _, _ => []
  | fuel + 1, pos, s =>
    match findNext s with
    | none => []
    | some (gap, anchor, title, rest) =>
      let m0 := pos + gap.length
      let m2 := m0 + openLit.length
      let m3 := m2 + anchor.length
      let m4 := m3 + midLit.length
      let m5 := m4 + title.length
      let m1 := m5 + closeLit.length
      ⟨m0, m1, m2, m3, m4, m5⟩ :: findAllLoop fuel m1 rest

/-- Call `re.FindAllSubmatchIndex(data, -1)` for the marker pattern. -/
def findAllSubmatchIndex (data : Str) : List Submatch :=
  findAllLoop (data.length + 1) 0 data

/-- The `for i, m := range matches` loop of `loadChapters`: the first argument holds
`matches[i:]`, the second the chapters appended so far. -/
def chaptersLoop (ent : Str → Str) (data : Str) : List Submatch → List Chapter → List Chapter
  | [], chapters => chapters
  | m :: rest, chapters =>
    let anchor := slice data m.m2 m.m3
    let title := cleanInlineText ent (slice data m.m4 m.m5)
    let start := m.m1
    let stop :=
      match rest with
      | [] => data.length
      | next :: _ => next.m0
    let chunk := slice data start stop
    let text := cleanHTMLToText ent chunk
    chaptersLoop ent data rest
      (chapters ++ [{ Title := title, Anchor := anchor, Text := text, StartPage := 0 }])

/-- The error of `loadChapters` when no marker is found. -/
def noChaptersError : String := "no se encontraron capitulos en el HTML"

/-- Function `loadChapters` of `main.go`, applied to the content `data` of the file. -/
def loadChaptersFrom (ent : Str → Str) (data : Str) : Except String (List Chapter) :=
  let found := findAllSubmatchIndex data
  if found.length = 0 then Except.error noChaptersError
  else Except.ok (chaptersLoop ent data found [])

/-- The text of a marker `<h3><a name="ANCHOR"></a>TITLE</h3>`. -/
def markerText (anchor title : Str) : Str :=
  openLit ++ anchor ++ midLit ++ title ++ closeLit

/-- A document contains a marker: a text `<h3><a name="ANCHOR"></a>TITLE</h3>` with a
non-empty anchor without `"`. -/
def ContainsMarker (doc : Str) : Prop :=
  ∃ pre anchor title post : Str,
    anchor ≠ [] ∧ (∀ c ∈ anchor, c ≠ '"') ∧ doc = pre ++ markerText anchor title ++ post

/-- The text of a marker followed by the text up to the next marker (or to the end of the
document), for a triple `(anchor, title, body)`. -/
def segmentText (m : Str × Str × Str) : Str := markerText m.1 m.2.1 ++ m.2.2

/-- A marker starts at the beginning of `s`. -/
def StartsMarker (s : Str) : Prop :=
  ∃ anchor title post : Str,
    anchor ≠ [] ∧ (∀ c ∈ anchor, c ≠ '"') ∧ s = markerText anchor title ++ post

/-- The title `t`, followed by `</h3>` and the text `r`, ends at the first `</h3>`: at no
earlier position of `t` does a `</h3>` start. -/
def FirstClose (t r : Str) : Prop :=
  ∀ x y z : Str, t = x ++ y → y ≠ [] → y ++ closeLit ++ r ≠ closeLit ++ z

/-- The split of a text `s` by its successive marker matches, scanning from the left
without overlap: `gap` is the text before the first match and every triple
`(anchor, title, body)` is a match followed by the text up to the next match (or to the
end of `s`).  A match is the first marker that starts at or after the end of the previous
match (no marker starts inside the gap); its anchor runs to the next `"` and is not
empty; its title runs to the first `</h3>`.  After the last match the text contains no
marker. -/
def LeftmostSplit : List (Str × Str × Str) → Str → Str → Prop
  | [], s, gap => s = gap ∧ ¬ ContainsMarker s
  | (anchor, title, body) :: ms, s, gap =>
    ∃ r : Str, s = gap ++ markerText anchor title ++ r ∧
      anchor ≠ [] ∧ (∀ c ∈ anchor, c ≠ '"') ∧ FirstClose title r ∧
      (∀ pre x : Str, gap = pre ++ x → x ≠ [] →
        ¬ StartsMarker (x ++ markerText anchor title ++ r)) ∧
      LeftmostSplit ms r body

/-- The chapter of a triple `(anchor, title, body)`: the anchor, the cleaned title and
the cleaned body. -/
def segmentChapter (ent : Str → Str) (m : Str × Str × Str) : Chapter :=
  { Title := cleanInlineText ent m.2.1, Anchor := m.1, Text := cleanHTMLToText ent m.2.2,
    StartPage := 0 }

/-- The document of the two-marker scenario. -/
def twoMarkerDoc : Str :=
  "<h3><a name=\"c1\"></a>One</h3>Hello   world.<h3><a name=\"c2\"></a>Two</h3>Bye.".toList

/-- A document in which a marker starts inside the title of another one: the first `<h3>`
is not closed before the second marker. -/
def nestedDoc : Str :=
  "<h3><a name=\"x\"></a>A<h3><a name=\"y\"></a>B</h3>body".toList

/-! ## Interactive model: `model.Update` -/

/-- Type `mode` of `main.go`. -/
inductive Mode where
  | modeList
  | modeReader
deriving DecidableEq, Repr

/-- The fields of `model` of `main.go`.  Of the chapter list (a `list.Model` of the
`bubbles` library) only the selected item is kept: `selected` is the `index` of the
`chapterItem` returned by `m.list.SelectedItem()`, if there is one. -/
structure Model where
  book : Book
  state : State
  mode : Mode
  selected : Option Nat
  width : Int
  height : Int
  pageWidth : Int
  pageLines : Int
  err : Option Str
deriving DecidableEq, Repr

/-- The messages handled by `model.Update`: a key, named by `msg.String()`, a window
size, an error. -/
inductive Msg where
  | key (name : String)
  | windowSize (width height : Int)
  | err (text : Str)
deriving DecidableEq, Repr

/-- The commands returned by `model.Update`: none, `tea.Quit`, `saveStateCmd(state)`, or
the command of the chapter list. -/
inductive Cmd where
  | none
  | quit
  | saveState (state : State)
  | list
deriving DecidableEq, Repr

/-- Constant `pageLineCount`. -/
def pageLineCount : Int := 25

/-- Constant `pageLineWidth`. -/
def pageLineWidth : Int := 80

/-- Function `computePageLayout` of `main.go`. -/
def computePageLayout (width height : Int) : Int × Int :=
  let pageWidth := if width > 0 then (if width - 4 < 40 then 40 else width - 4) else pageLineWidth
  let pageLines := if height > 0 then (if height - 8 < 10 then 10 else height - 8) else pageLineCount
  (pageWidth, pageLines)

/-- The end of `model.Update`: in list mode the message goes to the chapter list, whose
update `listUpdate` (library code) gives the new selection. -/
def updateTail (listUpdate : Option Nat → Msg → Option Nat) (m : Model) (msg : Msg) :
    Model × Cmd :=
  if m.mode = Mode.modeList then ({ m with selected := listUpdate m.selected msg }, Cmd.list)
  else (m, Cmd.none)

/-- Method `model.Update` of `main.go`.  The result is `none` when the code panics (an
index out of range in `m.book.Chapters[item.index]`). -/
def update (listUpdate : Option Nat → Msg → Option Nat) (m : Model) (msg : Msg) :
    Option (Model × Cmd) :=
  match msg with
  | Msg.key name =>
    match m.mode with
    | Mode.modeList =>
      if name = "enter" then
        match m.selected with
        | some index =>
          match m.book.Chapters[index]? with
          | some ch =>
            let st : State := { Chapter := (index : Int), Page := ch.StartPage }
            some ({ m with state := st, mode := Mode.modeReader }, Cmd.saveState st)
          | Option.none => Option.none
        | Option.none => some (updateTail listUpdate m msg)
      else if name = "q" ∨ name = "esc" ∨ name = "ctrl+c" then some (m, Cmd.quit)
      else some (updateTail listUpdate m msg)
    | Mode.modeReader =>
      if name = "q" ∨ name = "ctrl+c" then some (m, Cmd.quit)
      else if name = "l" then some ({ m with mode := Mode.modeList }, Cmd.none)
      else if name = "enter" ∨ name = " " ∨ name = "right" ∨ name = "down" ∨ name = "pgdown" then
        if m.state.Page < (m.book.Pages.length : Int) - 1 then
          let st : State := { m.state with Page := m.state.Page + 1 }
          some ({ m with state := st }, Cmd.saveState st)
        else some (updateTail listUpdate m msg)
      else if name = "left" ∨ name = "up" ∨ name = "pgup" ∨ name = "b" then
        if m.state.Page > 0 then
          let st : State := { m.state with Page := m.state.Page - 1 }
          some ({ m with state := st }, Cmd.saveState st)
        else some (updateTail listUpdate m msg)
      else if name = "home" then
        let st : State := { m.state with Page := 0 }
        some ({ m with state := st }, Cmd.saveState st)
      else if name = "end" then
        if (m.book.Pages.length : Int) > 0 then
          let st : State := { m.state with Page := (m.book.Pages.length : Int) - 1 }
          some ({ m with state := st }, Cmd.saveState st)
        else some (updateTail listUpdate m msg)
      else some (updateTail listUpdate m msg)
  | Msg.windowSize width height =>
    let m := { m with width := width, height := height }
    let (pageWidth, pageLines) := computePageLayout width height
    if pageWidth ≠ m.pageWidth ∨ pageLines ≠ m.pageLines then
      let oldTotal : Int := m.book.Pages.length
      let oldPage := m.state.Page
      match buildBookPagesForSize m.book.Chapters pageWidth pageLines with
      | Option.none => Option.none
      | some (pages, chapters) =>
        let newTotal : Int := pages.length
        let page :=
          if oldTotal > 0 ∧ newTotal > 0 then remapPage oldPage oldTotal newTotal
          else if newTotal > 0 ∧ m.state.Page ≥ newTotal then newTotal - 1
          else m.state.Page
        let st : State := { m.state with Page := page }
        some ({ m with pageWidth := pageWidth, pageLines := pageLines,
                       book := { Chapters := chapters, Pages := pages }, state := st },
          Cmd.saveState st)
    else some (updateTail listUpdate m msg)
  | Msg.err text => some (updateTail listUpdate { m with err := some text } msg)

/-- A book of two chapters, the second one with an empty title and an empty body, as
extracted from a document that ends with the marker `<h3><a name="c2"></a></h3>`. -/
def emptyTailChapters : List Chapter :=
  [⟨"One".toList, "c1".toList, "Hello".toList, 0⟩, ⟨[], "c2".toList, [], 0⟩]

/-- The width property of a line: it has at most `width` bytes, or it contains no white
space (it is a single word). -/
def lineFits (width : Int) (l : Str) : Prop :=
  (byteLen l : Int) ≤ width ∨ ∀ c ∈ l, isSpace c = false

/-- Four chapters stamped with the start pages 0, 3, 3 and 5. -/
def sampleChapters : List Chapter :=
  [⟨['A'], ['a'], ['x'], 0⟩, ⟨['B'], ['b'], ['y'], 3⟩, ⟨[], ['c'], [], 3⟩, ⟨['D'], ['d'], ['z'], 5⟩]

/-! ## Theorems: position tracker -/

/-- Invariant of the scan: either no chapter of `rest` was accepted (the result is the
incoming `idx` and the head of `rest`, if any, starts after `page`), or the result is the
position `i + k` of a chapter of `rest` that starts at or before `page` and whose successor
in `rest`, if any, starts after `page`. -/
theorem chapterIndexLoop_spec (page : Int) (rest : List Chapter) :
    ∀ i idx : Nat,
      (chapterIndexLoop page rest i idx = idx ∧
          ∀ c, rest.head? = some c → page < c.StartPage) ∨
      ∃ k c, chapterIndexLoop page rest i idx = i + k ∧ rest[k]? = some c ∧
          c.StartPage ≤ page ∧ ∀ d, rest[k + 1]? = some d → page < d.StartPage := by
  induction rest with
  | nil => intro i idx; left; simp [chapterIndexLoop]
  | cons c rest ih =>
    intro i idx
    by_cases hc : c.StartPage > page
    · left; simp [chapterIndexLoop, hc]
    · right
      have hle : c.StartPage ≤ page := not_lt.mp hc
      rcases ih (i + 1) i with ⟨h1, h2⟩ | ⟨k, d, h1, h2, h3, h4⟩
      · refine ⟨0, c, ?_, by simp, hle, ?_⟩
        · simp [chapterIndexLoop, hc, h1]
        · intro d hd
          apply h2 d
          cases rest with
          | nil => simp at hd
          | cons x xs => simpa using hd
      · refine ⟨k + 1, d, ?_, by simpa using h2, h3, ?_⟩
        · simp [chapterIndexLoop, hc, h1]; omega
        · intro e he; exact h4 e (by simpa using he)

/-- **C3.** For a non-empty chapter sequence whose `StartPage`s are non-decreasing and start
at `0`, and a page `page ≥ 0`, `chapterIndexForPage` returns the index `i` of the last
chapter with `StartPage ≤ page`: chapter `i` exists, `chapters[i].StartPage ≤ page`, either
`i = len(chapters) - 1` or `chapters[i+1].StartPage > page`, and every chapter with
`StartPage ≤ page` has an index `≤ i`.  For the empty sequence the result is `0`. -/
theorem chapterIndexForPage_last (chapters : List Chapter) (page : Int)
    (hne : chapters ≠ [])
    (hmono : List.Chain' (fun a b : Chapter => a.StartPage ≤ b.StartPage) chapters)
    (h0 : ∀ c, chapters.head? = some c → c.StartPage = 0)
    (hpage : 0 ≤ page) :
    chapterIndexForPage [] page = 0 ∧
    ∃ c, chapters[chapterIndexForPage chapters page]? = some c ∧ c.StartPage ≤ page ∧
      (chapterIndexForPage chapters page = chapters.length - 1 ∨
        ∃ d, chapters[chapterIndexForPage chapters page + 1]? = some d ∧ page < d.StartPage) ∧
      ∀ j d, chapters[j]? = some d → d.StartPage ≤ page → j ≤ chapterIndexForPage chapters page := by
  refine ⟨by simp [chapterIndexForPage], ?_⟩
  have hlen : chapters.length ≠ 0 := by
    intro h; exact hne (List.length_eq_zero.mp h)
  have hdef : chapterIndexForPage chapters page = chapterIndexLoop page chapters 0 0 := by
    simp [chapterIndexForPage, hlen]
  rw [hdef]
  haveI : IsTrans Chapter (fun a b : Chapter => a.StartPage ≤ b.StartPage) :=
    ⟨fun _ _ _ h1 h2 => le_trans h1 h2⟩
  have hsorted : List.Pairwise (fun a b : Chapter => a.StartPage ≤ b.StartPage) chapters :=
    List.chain'_iff_pairwise.mp hmono
  rcases chapterIndexLoop_spec page chapters 0 0 with ⟨_, h2⟩ | ⟨k, c, h1, h2, h3, h4⟩
  · exfalso
    cases chapters with
    | nil => exact hne rfl
    | cons x xs =>
      have hx := h0 x (by simp)
      have := h2 x (by simp)
      omega
  · have hk : chapterIndexLoop page chapters 0 0 = k := by simpa using h1
    rw [hk]
    have hklt : k < chapters.length := by
      rcases List.getElem?_eq_some.mp h2 with ⟨h, _⟩; exact h
    refine ⟨c, h2, h3, ?_, ?_⟩
    · by_cases hlast : k + 1 < chapters.length
      · right
        exact ⟨chapters[k + 1], List.getElem?_eq_getElem hlast,
          h4 _ (List.getElem?_eq_getElem hlast)⟩
      · left; omega
    · intro j d hj hd
      by_contra hcon
      have hjk : k + 1 ≤ j := by omega
      rcases List.getElem?_eq_some.mp hj with ⟨hjlt, hjd⟩
      have hk1 : k + 1 < chapters.length := by omega
      have hgt := h4 _ (List.getElem?_eq_getElem hk1)
      rcases Nat.lt_or_eq_of_le hjk with hlt | heq
      · have := List.pairwise_iff_getElem.mp hsorted (k + 1) j hk1 hjlt hlt
        rw [hjd] at this
        omega
      · subst heq
        rw [hjd] at hgt
        omega

/-- A concrete instance of C3: chapters starting at pages 0, 3, 3, 5 and page 4. -/
theorem chapterIndexForPage_last_witness :
    chapterIndexForPage [] 4 = 0 ∧
    ∃ c, sampleChapters[chapterIndexForPage sampleChapters 4]? = some c ∧ c.StartPage ≤ 4 ∧
      (chapterIndexForPage sampleChapters 4 = sampleChapters.length - 1 ∨
        ∃ d, sampleChapters[chapterIndexForPage sampleChapters 4 + 1]? = some d ∧
          4 < d.StartPage) ∧
      ∀ j d, sampleChapters[j]? = some d → d.StartPage ≤ 4 →
        j ≤ chapterIndexForPage sampleChapters 4 :=
  chapterIndexForPage_last sampleChapters 4
    (by decide) (by simp [sampleChapters]) (by intro c h; simp [sampleChapters] at h; subst h; rfl)
    (by decide)

/-- **C4.** For all integers `oldPage`, `oldTotal`, `newTotal`: when `newTotal > 0` the
result of `remapPage` lies in `[0, newTotal - 1]`, and when `newTotal ≤ 0` it is `0`.
The bound comes from the two clamping tests alone, whatever the floating-point product
converts to. -/
theorem remapPage_range (oldPage oldTotal newTotal : Int) :
    (0 < newTotal →
      0 ≤ remapPage oldPage oldTotal newTotal ∧
        remapPage oldPage oldTotal newTotal ≤ newTotal - 1) ∧
    (newTotal ≤ 0 → remapPage oldPage oldTotal newTotal = 0) := by
  constructor
  · intro hpos
    unfold remapPage
    by_cases h : oldTotal ≤ 0 ∨ newTotal ≤ 0
    · rw [if_pos h]; omega
    · rw [if_neg h]
      simp only []
      split_ifs <;> omega
  · intro h
    simp [remapPage, h]

/-- Instances of C4: a book going from 100 to 50 pages, and an empty new book. -/
theorem remapPage_range_witness :
    (0 ≤ remapPage 50 100 50 ∧ remapPage 50 100 50 ≤ 50 - 1) ∧ remapPage 50 100 0 = 0 :=
  ⟨(remapPage_range 50 100 50).1 (by decide), (remapPage_range 50 100 0).2 (by decide)⟩

/-! ## Theorems: slicing lines into pages -/

/-- The slice `lines[i:end]` of the loop, with `end = min(i + n, len(lines))`, holds the
next `n` lines after the first `i` (fewer when fewer are left). -/
theorem slice_eq_take_drop {α : Type} (xs : List α) (i n : Nat) :
    slice xs i (min (i + n) xs.length) = (xs.drop i).take n := by
  unfold slice
  by_cases h : i + n ≤ xs.length
  · rw [Nat.min_eq_left h]; congr 1; omega
  · have h1 : min (i + n) xs.length = xs.length := Nat.min_eq_right (by omega)
    rw [h1, List.take_of_length_le (by simp), List.take_of_length_le (by simp; omega)]

/-- Ceiling division: one more group when at least one line is left. -/
theorem ceilDiv_step (a n : Nat) (hn : 0 < n) (ha : 0 < a) :
    (a + n - 1) / n = (a - n + n - 1) / n + 1 := by
  by_cases h : n ≤ a
  · have e : a + n - 1 = (a - n + n - 1) + n := by omega
    rw [e, Nat.add_div_right _ hn]
  · have e0 : a - n + n - 1 = n - 1 := by omega
    rw [e0, Nat.div_eq_of_lt (by omega : n - 1 < n)]
    exact Nat.div_eq_of_lt_le (by omega) (by omega)

/-- The loop of `paginate` with `linesPerPage = n ≥ 1`, started at line `i` with enough
fuel, ends and appends one page per group of a grouping of the remaining lines: the groups
are consecutive, non-empty, of at most `n` lines, and all but the last have `n` lines. -/
theorem paginateLoop_groups (lines : List Str) (n : Nat) (hn : 0 < n) :
    ∀ (fuel i : Nat) (pages : List Str), lines.length ≤ fuel + i →
      ∃ groups : List (List Str),
        groups.flatten = lines.drop i ∧
        (∀ g ∈ groups, g ≠ [] ∧ g.length ≤ n) ∧
        (∀ g ∈ groups.dropLast, g.length = n) ∧
        groups.length = (lines.length - i + n - 1) / n ∧
        paginateLoop lines (n : Int) (fuel + 1) (i : Int) pages =
          some (pages ++ groups.map (fun g => trimSpace (join g ['\n']))) := by
  intro fuel
  induction fuel with
  | zero =>
    intro i pages h
    refine ⟨[], ?_, by simp, by simp, ?_, ?_⟩
    · simp; omega
    · have e : lines.length - i + n - 1 = n - 1 := by omega
      rw [e, Nat.div_eq_of_lt (by omega)]; rfl
    · have hi : ¬ ((i : Int) < (lines.length : Int)) := by omega
      simp [paginateLoop, hi]
  | succ fuel ih =>
    intro i pages h
    by_cases hi : i < lines.length
    · obtain ⟨groups, hj, hg, hd, hl, hp⟩ :=
        ih (i + n) (pages ++ [trimSpace (join ((lines.drop i).take n) ['\n'])]) (by omega)
      have hne : (lines.drop i).take n ≠ [] := by
        intro h0
        have := congrArg List.length h0
        simp at this
        omega
      refine ⟨(lines.drop i).take n :: groups, ?_, ?_, ?_, ?_, ?_⟩
      · rw [List.flatten_cons, hj, ← List.drop_drop, List.take_append_drop]
      · intro g hgm
        rcases List.mem_cons.mp hgm with rfl | hgm
        · exact ⟨hne, by simp⟩
        · exact hg g hgm
      · intro g hgm
        cases groups with
        | nil => simp at hgm
        | cons g1 gs =>
          rw [List.dropLast_cons₂] at hgm
          rcases List.mem_cons.mp hgm with rfl | hgm
          · have h1 : g1 ≠ [] := (hg g1 (by simp)).1
            have h2 : lines.drop (i + n) ≠ [] := by
              rw [← hj, List.flatten_cons]
              intro h0
              exact h1 (List.append_eq_nil.mp h0).1
            have h3 : i + n < lines.length := by
              by_contra hcon
              exact h2 (List.drop_eq_nil_of_le (by omega))
            simp
            omega
          · exact hd g hgm
      · rw [List.length_cons, hl, ceilDiv_step (lines.length - i) n hn (by omega)]
        congr 2
        omega
      · have hcond : ((i : Int) < (lines.length : Int)) := by omega
        rw [paginateLoop]
        simp only [hcond, if_true]
        have hstop : (if (i : Int) + (n : Int) > (lines.length : Int) then (lines.length : Int)
            else (i : Int) + (n : Int)) = ((min (i + n) lines.length : Nat) : Int) := by
          split_ifs with hc <;> omega
        rw [hstop]
        have hb : (0 : Int) ≤ (i : Int) ∧ (i : Int) ≤ ((min (i + n) lines.length : Nat) : Int) := by
          omega
        simp only [hb, and_self, if_true, Int.toNat_ofNat]
        rw [slice_eq_take_drop]
        have hin : (i : Int) + (n : Int) = ((i + n : Nat) : Int) := by push_cast; rfl
        rw [hin, hp]
        simp
    · refine ⟨[], ?_, by simp, by simp, ?_, ?_⟩
      · simp; omega
      · have e : lines.length - i + n - 1 = n - 1 := by omega
        rw [e, Nat.div_eq_of_lt (by omega)]; rfl
      · have hi2 : ¬ ((i : Int) < (lines.length : Int)) := by omega
        simp [paginateLoop, hi2]

/-! ## Theorems: strings -/

theorem consHead_ne_nil (c : Char) (ls : List Str) : consHead c ls ≠ [] := by
  cases ls <;> simp [consHead]

theorem consHead_length (c : Char) (ls : List Str) (h : ls ≠ []) :
    (consHead c ls).length = ls.length := by
  cases ls with
  | nil => exact absurd rfl h
  | cons l ls => simp [consHead]

theorem splitWhere_ne_nil (p : Char → Bool) (s : Str) : splitWhere p s ≠ [] := by
  cases s with
  | nil => simp [splitWhere]
  | cons c rest =>
    simp only [splitWhere]
    split_ifs
    · simp
    · exact consHead_ne_nil _ _

/-- Cutting at the runes satisfying `p` gives one piece more than there are such runes. -/
theorem splitWhere_length (p : Char → Bool) (s : Str) :
    (splitWhere p s).length = s.countP p + 1 := by
  induction s with
  | nil => simp [splitWhere]
  | cons c rest ih =>
    simp only [splitWhere]
    by_cases h : p c = true
    · simp [h, ih]
    · simp [h, consHead_length _ _ (splitWhere_ne_nil p rest), ih]

/-- No piece of a cut contains a rune satisfying `p`. -/
theorem splitWhere_free (p : Char → Bool) (s : Str) :
    ∀ l ∈ splitWhere p s, ∀ c ∈ l, p c = false := by
  induction s with
  | nil => simp [splitWhere]
  | cons c rest ih =>
    intro l hl
    simp only [splitWhere] at hl
    by_cases h : p c = true
    · simp only [h, if_true] at hl
      rcases List.mem_cons.mp hl with rfl | hl
      · simp
      · exact ih l hl
    · simp only [h] at hl
      cases hs : splitWhere p rest with
      | nil => exact absurd hs (splitWhere_ne_nil p rest)
      | cons l1 ls =>
        rw [hs] at hl ih
        simp only [consHead, Bool.false_eq_true, if_false] at hl
        rcases List.mem_cons.mp hl with rfl | hl
        · intro d hd
          rcases List.mem_cons.mp hd with rfl | hd
          · simpa using h
          · exact ih l1 (by simp) d hd
        · exact ih l (by simp [hl])

/-- Joining pieces that are free of `p` with a separator rune satisfying `p` gives one
such rune less than there are pieces. -/
theorem countP_join (p : Char → Bool) (sep : Char) (hsep : p sep = true) (ls : List Str)
    (hfree : ∀ l ∈ ls, ∀ c ∈ l, p c = false) (hne : ls ≠ []) :
    (join ls [sep]).countP p + 1 = ls.length := by
  induction ls with
  | nil => exact absurd rfl hne
  | cons l ls ih =>
    have hl : l.countP p = 0 := by
      rw [List.countP_eq_zero]
      intro c hc
      simp [hfree l (by simp) c hc]
    cases ls with
    | nil => simp [join, List.intercalate, hl]
    | cons l2 ls2 =>
      have ih2 := ih (fun x hx => hfree x (by simp [hx])) (by simp)
      simp only [join, List.intercalate, List.intersperse, List.flatten_cons,
        List.countP_append, List.length_cons] at ih2 ⊢
      simp only [hl, List.countP_cons, hsep, if_true, List.countP_nil]
      omega

theorem trimSpace_sublist (s : Str) : (trimSpace s).Sublist s := by
  unfold trimSpace
  exact ((List.rdropWhile_prefix _ _).sublist).trans (List.dropWhile_suffix _).sublist

/-- A string trims to the empty string exactly when it is all white space. -/
theorem trimSpace_eq_nil_iff (s : Str) : trimSpace s = [] ↔ ∀ c ∈ s, isSpace c = true := by
  unfold trimSpace
  rw [List.rdropWhile_eq_nil_iff]
  constructor
  · intro h
    by_contra hcon
    have hne : s.dropWhile isSpace ≠ [] := by
      intro h0
      exact hcon (List.dropWhile_eq_nil_iff.mp h0)
    have hhead := List.head_dropWhile_not isSpace s hne
    have := h _ (List.head_mem hne)
    simp [this] at hhead
  · intro h c hc
    exact h c ((List.dropWhile_suffix _).subset hc)

/-! ## Theorems: `paginate` -/

/-- For a text that is not all white space and `linesPerPage ≥ 1`, `paginate` returns one
page per group of a grouping of the wrapped lines into consecutive groups of
`linesPerPage` lines, the last one possibly shorter. -/
theorem paginate_groups (text : Str) (linesPerPage lineWidth : Int) (h : 1 ≤ linesPerPage)
    (hne : trimSpace text ≠ []) :
    ∃ groups : List (List Str),
      groups.flatten = splitLines (wrapText text lineWidth) ∧
      (∀ g ∈ groups, g ≠ [] ∧ g.length ≤ linesPerPage.toNat) ∧
      (∀ g ∈ groups.dropLast, g.length = linesPerPage.toNat) ∧
      groups.length = ((splitLines (wrapText text lineWidth)).length + linesPerPage.toNat - 1)
        / linesPerPage.toNat ∧
      paginate text linesPerPage lineWidth =
        some (groups.map (fun g => trimSpace (join g ['\n']))) := by
  have hn : 0 < linesPerPage.toNat := by omega
  have hcast : ((linesPerPage.toNat : Nat) : Int) = linesPerPage := Int.toNat_of_nonneg (by omega)
  obtain ⟨groups, hj, hg, hd, hl, hp⟩ :=
    paginateLoop_groups (splitLines (wrapText text lineWidth)) linesPerPage.toNat hn
      (splitLines (wrapText text lineWidth)).length 0 [] (by omega)
  refine ⟨groups, by simpa using hj, hg, hd, by simpa using hl, ?_⟩
  unfold paginate
  rw [if_neg hne]
  simp only []
  rw [hcast] at hp
  simpa using hp

/-- A page built from a non-empty group of lines, none of which contains a line feed, has
at most as many lines as the group. -/
theorem page_lineCount (g : List Str) (hne : g ≠ [])
    (hfree : ∀ l ∈ g, ∀ c ∈ l, (c == '\n') = false) :
    (splitLines (trimSpace (join g ['\n']))).length ≤ g.length := by
  unfold splitLines
  rw [splitWhere_length]
  have h1 := countP_join (fun c => c == '\n') '\n' (by simp) g hfree hne
  have h2 := (trimSpace_sublist (join g ['\n'])).countP_le (fun c => c == '\n')
  omega

/-- Ceiling of a quotient of naturals, as computed by rounding-up division. -/
theorem ceil_div_eq (L n : Nat) (hn : 0 < n) :
    ⌈((L : ℚ) / (n : ℚ))⌉ = (((L + n - 1) / n : Nat) : Int) := by
  rw [Int.ceil_eq_iff]
  have hnq : (0 : ℚ) < (n : ℚ) := by exact_mod_cast hn
  have hm := Nat.div_add_mod (L + n - 1) n
  have hlt := Nat.mod_lt (L + n - 1) hn
  rw [Nat.mul_comm] at hm
  generalize (L + n - 1) / n = q at hm ⊢
  rw [Int.cast_natCast]
  constructor
  · rw [lt_div_iff₀ hnq]
    have h3 : q * n < L + n := by omega
    have h4 : (q : ℚ) * (n : ℚ) < (L : ℚ) + (n : ℚ) := by exact_mod_cast h3
    linarith
  · rw [div_le_iff₀ hnq]
    have h3 : L ≤ q * n := by omega
    exact_mod_cast h3

/-- **C9.** For `linesPerPage ≥ 1` and any `lineWidth`: when `text` is not all white space,
`paginate` returns the pages of a grouping of the `L` lines of the wrapped text into
consecutive groups (`groups.flatten` is the line sequence), every group with at least one
and at most `linesPerPage` lines and every group but the last with exactly `linesPerPage`;
each page is the trimmed join of its group, there are exactly `⌈L / linesPerPage⌉` pages,
and each page has at most `linesPerPage` lines.  A text that is all white space yields zero
pages.  With `lineWidth = 10` and `linesPerPage = 2` the text `"aaaa bbbb cccc dddd"` wraps
to the lines `"aaaa bbbb"`, `"cccc dddd"` and gives exactly one page. -/
theorem paginate_pages (text : Str) (linesPerPage lineWidth : Int) (h : 1 ≤ linesPerPage) :
    ((∃ c ∈ text, isSpace c = false) →
      ∃ groups : List (List Str),
        groups.flatten = splitLines (wrapText text lineWidth) ∧
        (∀ g ∈ groups, g ≠ [] ∧ (g.length : Int) ≤ linesPerPage) ∧
        (∀ g ∈ groups.dropLast, (g.length : Int) = linesPerPage) ∧
        paginate text linesPerPage lineWidth =
          some (groups.map (fun g => trimSpace (join g ['\n']))) ∧
        (groups.length : Int) =
          ⌈((splitLines (wrapText text lineWidth)).length : ℚ) / (linesPerPage : ℚ)⌉ ∧
        ∀ g ∈ groups,
          ((splitLines (trimSpace (join g ['\n']))).length : Int) ≤ linesPerPage) ∧
    ((∀ c ∈ text, isSpace c = true) → paginate text linesPerPage lineWidth = some []) ∧
    splitLines (wrapText "aaaa bbbb cccc dddd".toList 10) =
      ["aaaa bbbb".toList, "cccc dddd".toList] ∧
    paginate "aaaa bbbb cccc dddd".toList 2 10 = some ["aaaa bbbb\ncccc dddd".toList] := by
  have hcast : ((linesPerPage.toNat : Nat) : Int) = linesPerPage := Int.toNat_of_nonneg (by omega)
  refine ⟨?_, ?_, by decide, by decide⟩
  · rintro ⟨c, hc, hsp⟩
    have hne : trimSpace text ≠ [] := by
      intro h0
      have := (trimSpace_eq_nil_iff text).mp h0 c hc
      simp [this] at hsp
    obtain ⟨groups, hj, hg, hd, hl, hp⟩ := paginate_groups text linesPerPage lineWidth h hne
    refine ⟨groups, hj, ?_, ?_, hp, ?_, ?_⟩
    · intro g hgm
      have := hg g hgm
      exact ⟨this.1, by omega⟩
    · intro g hgm
      have := hd g hgm
      omega
    · have hq : ((linesPerPage.toNat : Nat) : ℚ) = (linesPerPage : ℚ) := by
        exact_mod_cast hcast
      rw [hl, ← ceil_div_eq _ _ (by omega), hq]
    · intro g hgm
      have hfree : ∀ l ∈ g, ∀ c ∈ l, (c == '\n') = false := by
        intro l hl2
        apply splitWhere_free (fun c => c == '\n') (wrapText text lineWidth) l
        have : l ∈ groups.flatten := List.mem_flatten.mpr ⟨g, hgm, hl2⟩
        rw [hj] at this
        exact this
      have h1 := page_lineCount g (hg g hgm).1 hfree
      have h2 := (hg g hgm).2
      omega
  · intro hall
    have h0 : trimSpace text = [] := (trimSpace_eq_nil_iff text).mpr hall
    simp [paginate, h0]

/-- The scenario of C9: `linesPerPage = 2` satisfies the hypothesis, and the text
`"aaaa bbbb cccc dddd"` at width 10 gives one page. -/
theorem paginate_pages_witness :
    (1 : Int) ≤ 2 ∧
      paginate "aaaa bbbb cccc dddd".toList 2 10 = some ["aaaa bbbb\ncccc dddd".toList] :=
  ⟨by decide, (paginate_pages "aaaa bbbb cccc dddd".toList 2 10 (by decide)).2.2.2⟩

/-! ## Theorems: `buildBookPagesForSize` -/

/-- With `linesPerPage ≥ 1` the function `paginate` returns. -/
theorem paginate_total (text : Str) (linesPerPage lineWidth : Int) (h : 1 ≤ linesPerPage) :
    ∃ ps, paginate text linesPerPage lineWidth = some ps := by
  by_cases hne : trimSpace text = []
  · exact ⟨[], by simp [paginate, hne]⟩
  · obtain ⟨groups, _, _, _, _, hp⟩ := paginate_groups text linesPerPage lineWidth h hne
    exact ⟨_, hp⟩

/-- The loop of `buildBookPagesForSize`, started with the accumulated pages `pages` and
the stamped chapters `done`: it returns, appending the pages of each remaining chapter in
order and stamping the chapter at position `i` with the number of pages accumulated
before it. -/
theorem buildLoop_spec (width lines : Int) (hl : 1 ≤ lines) (chapters : List Chapter) :
    ∀ (pages : List Str) (done : List Chapter),
      ∃ (pp : List (List Str)) (chs : List Chapter),
        List.Forall₂ (fun ch ps =>
          paginate (trimSpace (ch.Title ++ ['\n', '\n'] ++ ch.Text)) lines width = some ps)
          chapters pp ∧
        buildLoop width lines chapters pages done = some (pages ++ pp.flatten, done ++ chs) ∧
        chs.length = chapters.length ∧
        ∀ (i : Nat) (ch : Chapter), chapters[i]? = some ch →
          chs[i]? = some { ch with
            StartPage := ((pages.length + (pp.take i).flatten.length : Nat) : Int) } := by
  induction chapters with
  | nil =>
    intro pages done
    exact ⟨[], [], List.Forall₂.nil, by simp [buildLoop], rfl, by simp⟩
  | cons ch rest ih =>
    intro pages done
    obtain ⟨ps, hps⟩ :=
      paginate_total (trimSpace (ch.Title ++ ['\n', '\n'] ++ ch.Text)) lines width hl
    obtain ⟨pp, chs, hf, hb, hlen, hidx⟩ :=
      ih (pages ++ ps) (done ++ [{ ch with StartPage := (pages.length : Int) }])
    refine ⟨ps :: pp, { ch with StartPage := (pages.length : Int) } :: chs,
      List.Forall₂.cons hps hf, ?_, by simp [hlen], ?_⟩
    · rw [buildLoop]
      simp only [pageSource]
      rw [hps]
      simp only []
      rw [hb]
      simp [List.append_assoc]
    · intro i c hc
      cases i with
      | zero =>
        simp at hc
        subst hc
        simp
      | succ i =>
        simp only [List.getElem?_cons_succ] at hc ⊢
        rw [hidx i c hc]
        simp [Nat.add_assoc]

/-- **C1.** For every chapter sequence and every `(width, lines)`, `buildBookPagesForSize`
returns; the page sequence is the concatenation, in chapter order, of the pages
`paginate(TrimSpace(Title + "\n\n" + Text), max(lines, 5), max(width, 20))` of the chapters
(`pp` lists them chapter by chapter); the returned chapters are the given ones with
`StartPage` set to the number of pages of the chapters before; hence the first `StartPage`
is `0` and `StartPage` is non-decreasing. -/
theorem buildBookPagesForSize_concat (chapters : List Chapter) (width lines : Int) :
    ∃ (pp : List (List Str)) (chs : List Chapter),
      List.Forall₂ (fun ch ps =>
        paginate (trimSpace (ch.Title ++ ['\n', '\n'] ++ ch.Text)) (max lines 5) (max width 20)
          = some ps) chapters pp ∧
      buildBookPagesForSize chapters width lines = some (pp.flatten, chs) ∧
      chs.length = chapters.length ∧
      (∀ (i : Nat) (ch : Chapter), chapters[i]? = some ch →
        chs[i]? = some { ch with StartPage := ((pp.take i).flatten.length : Int) }) ∧
      (∀ c, chs.head? = some c → c.StartPage = 0) ∧
      List.Chain' (fun a b : Chapter => a.StartPage ≤ b.StartPage) chs := by
  have hw : (if width < 20 then 20 else width) = max width 20 := by
    rw [max_def]; split_ifs <;> omega
  have hl : (if lines < 5 then 5 else lines) = max lines 5 := by
    rw [max_def]; split_ifs <;> omega
  obtain ⟨pp, chs, hf, hb, hlen, hidx⟩ :=
    buildLoop_spec (max width 20) (max lines 5) (by rw [max_def]; split_ifs <;> omega)
      chapters [] []
  have hidx2 : ∀ (i : Nat) (ch : Chapter), chapters[i]? = some ch →
      chs[i]? = some { ch with StartPage := ((pp.take i).flatten.length : Int) } := by
    intro i ch hc
    simpa using hidx i ch hc
  have hstart : ∀ i (hi : i < chs.length), chs[i].StartPage = ((pp.take i).flatten.length : Int) := by
    intro i hi
    have hi2 : i < chapters.length := by omega
    have := hidx2 i chapters[i] (List.getElem?_eq_getElem hi2)
    rw [List.getElem?_eq_getElem hi] at this
    have h2 := Option.some.inj this
    rw [h2]
  refine ⟨pp, chs, hf, ?_, hlen, hidx2, ?_, ?_⟩
  · unfold buildBookPagesForSize
    simp only [hw, hl]
    simpa using hb
  · intro c hc
    cases chs with
    | nil => simp at hc
    | cons x xs =>
      simp at hc
      subst hc
      have := hstart 0 (by simp)
      simpa using this
  · apply List.Pairwise.chain'
    rw [List.pairwise_iff_getElem]
    intro i j hi hj hij
    rw [hstart i hi, hstart j hj]
    have e : pp.take j = pp.take i ++ (pp.take j).drop i := by
      have := (List.take_append_drop i (pp.take j)).symm
      rw [List.take_take, Nat.min_eq_left (Nat.le_of_lt hij)] at this
      exact this
    rw [e, List.flatten_append, List.length_append]
    push_cast
    omega

/-! ## Theorems: cutting and joining -/

theorem byteLen_append (a b : Str) : byteLen (a ++ b) = byteLen a + byteLen b := by
  simp [byteLen]

theorem byteLen_cons (c : Char) (s : Str) : byteLen (c :: s) = c.utf8Size + byteLen s := by
  simp [byteLen]

theorem byteLen_eq_zero (s : Str) (h : byteLen s = 0) : s = [] := by
  cases s with
  | nil => rfl
  | cons c rest =>
    rw [byteLen_cons] at h
    have := Char.utf8Size_pos c
    omega

/-- The pieces of `x ++ y` are the pieces of `x` and the pieces of `y`, the last piece of
`x` and the first piece of `y` being glued together. -/
theorem splitWhere_append (p : Char → Bool) (x y : Str) :
    ∃ (xs : List Str) (l m : Str) (ys : List Str),
      splitWhere p x = xs ++ [l] ∧ splitWhere p y = m :: ys ∧
      splitWhere p (x ++ y) = xs ++ (l ++ m) :: ys := by
  induction x with
  | nil =>
    cases hy : splitWhere p y with
    | nil => exact absurd hy (splitWhere_ne_nil p y)
    | cons m ys => exact ⟨[], [], m, ys, by simp [splitWhere], rfl, by simp [hy]⟩
  | cons c x ih =>
    obtain ⟨xs, l, m, ys, h1, h2, h3⟩ := ih
    by_cases hc : p c = true
    · exact ⟨[] :: xs, l, m, ys, by simp [splitWhere, hc, h1], h2,
        by simp [splitWhere, hc, h3]⟩
    · cases xs with
      | nil =>
        exact ⟨[], c :: l, m, ys, by simp [splitWhere, hc, h1, consHead], h2,
          by simp [splitWhere, hc, h3, consHead]⟩
      | cons a xs =>
        exact ⟨(c :: a) :: xs, l, m, ys, by simp [splitWhere, hc, h1, consHead], h2,
          by simp [splitWhere, hc, h3, consHead]⟩

/-- A string without a rune satisfying `p` is its own single piece. -/
theorem splitWhere_of_free (p : Char → Bool) (s : Str) (h : ∀ c ∈ s, p c = false) :
    splitWhere p s = [s] := by
  induction s with
  | nil => rfl
  | cons c rest ih =>
    have hc : p c = false := h c (by simp)
    have hr := ih (fun d hd => h d (by simp [hd]))
    simp [splitWhere, hc, hr, consHead]

/-- Cutting `x ++ c :: y` at a rune `c` satisfying `p` cuts `x` and `y` separately. -/
theorem splitWhere_append_sep (p : Char → Bool) (x y : Str) (c : Char) (hc : p c = true) :
    splitWhere p (x ++ c :: y) = splitWhere p x ++ splitWhere p y := by
  obtain ⟨xs, l, m, ys, h1, h2, h3⟩ := splitWhere_append p x (c :: y)
  simp only [splitWhere, hc, if_true] at h2
  have hm : m = [] := by injection h2 with h _; exact h.symm
  have hys : ys = splitWhere p y := by injection h2 with _ h; exact h.symm
  rw [h3, h1, hm, hys]
  simp

/-- Joining the lines of a string with line feeds gives the string back. -/
theorem join_splitLines (s : Str) : join (splitLines s) ['\n'] = s := by
  unfold splitLines join
  induction s with
  | nil => simp [splitWhere, List.intercalate]
  | cons c rest ih =>
    simp only [splitWhere]
    by_cases hc : (c == '\n') = true
    · have hc2 : c = '\n' := by simpa using hc
      simp only [hc, if_true]
      cases hs : splitWhere (fun c => c == '\n') rest with
      | nil => exact absurd hs (splitWhere_ne_nil _ rest)
      | cons l ls =>
        rw [hs] at ih
        simp only [List.intercalate, List.intersperse, List.flatten_cons] at ih ⊢
        rw [ih, hc2]
        rfl
    · simp only [hc]
      cases hs : splitWhere (fun c => c == '\n') rest with
      | nil => exact absurd hs (splitWhere_ne_nil _ rest)
      | cons l ls =>
        rw [hs] at ih
        cases ls with
        | nil =>
          simp only [List.intercalate, List.intersperse, List.flatten_cons, consHead] at ih ⊢
          simp at ih ⊢
          exact ih
        | cons l2 ls2 =>
          simp only [List.intercalate, List.intersperse, List.flatten_cons, consHead] at ih ⊢
          simp at ih ⊢
          exact ih

theorem splitParagraphs_ne_nil (s : Str) : splitParagraphs s ≠ [] := by
  match s with
  | [] => simp [splitParagraphs]
  | [c] => simp [splitParagraphs]
  | c :: d :: rest =>
    simp only [splitParagraphs]
    split_ifs
    · simp
    · exact consHead_ne_nil _ _

theorem join_consHead (c : Char) (ls : List Str) (sep : Str) (h : ls ≠ []) :
    join (consHead c ls) sep = c :: join ls sep := by
  cases ls with
  | nil => exact absurd rfl h
  | cons l ls =>
    cases ls with
    | nil => simp [join, consHead, List.intercalate]
    | cons l2 ls2 => simp [join, consHead, List.intercalate, List.intersperse]

theorem join_cons_cons (l l2 : Str) (ls : List Str) (sep : Str) :
    join (l :: l2 :: ls) sep = l ++ sep ++ join (l2 :: ls) sep := by
  simp [join, List.intercalate, List.intersperse]

theorem join_nil_cons (ls : List Str) (sep : Str) (h : ls ≠ []) :
    join ([] :: ls) sep = sep ++ join ls sep := by
  cases ls with
  | nil => exact absurd rfl h
  | cons l ls => simp [join_cons_cons]

/-- Joining the paragraphs of a string with the paragraph break gives the string back. -/
theorem join_splitParagraphs (s : Str) : join (splitParagraphs s) paragraphBreak = s := by
  match s with
  | [] => simp [splitParagraphs, join, List.intercalate]
  | [c] => simp [splitParagraphs, join, List.intercalate]
  | c :: d :: rest =>
    simp only [splitParagraphs]
    by_cases h : c = '\n' ∧ d = '\n'
    · rw [if_pos h, join_nil_cons _ _ (splitParagraphs_ne_nil rest), join_splitParagraphs rest]
      rw [h.1, h.2]
      rfl
    · rw [if_neg h, join_consHead _ _ _ (splitParagraphs_ne_nil _),
        join_splitParagraphs (d :: rest)]

/-! ## Theorems: words -/

theorem fields_nil : fields [] = [] := by
  simp [fields, splitWhere]

theorem fields_cons_space (c : Char) (s : Str) (hc : isSpace c = true) :
    fields (c :: s) = fields s := by
  simp [fields, splitWhere, hc]

/-- The words of `x ++ c :: y`, for a white-space rune `c`, are those of `x` then those
of `y`. -/
theorem fields_append_sep (x y : Str) (c : Char) (hc : isSpace c = true) :
    fields (x ++ c :: y) = fields x ++ fields y := by
  simp [fields, splitWhere_append_sep isSpace x y c hc]

/-- Leading white space does not change the words. -/
theorem fields_append_spaces (sp y : Str) (h : ∀ c ∈ sp, isSpace c = true) :
    fields (sp ++ y) = fields y := by
  induction sp with
  | nil => rfl
  | cons c sp ih =>
    rw [List.cons_append, fields_cons_space _ _ (h c (by simp))]
    exact ih (fun d hd => h d (by simp [hd]))

/-- A non-empty string without white space is its own single word. -/
theorem fields_of_word (w : Str) (hne : w ≠ []) (h : ∀ c ∈ w, isSpace c = false) :
    fields w = [w] := by
  simp [fields, splitWhere_of_free isSpace w h, hne]

/-- Every word is non-empty and free of white space. -/
theorem fields_mem (s w : Str) (hw : w ∈ fields s) :
    w ≠ [] ∧ ∀ c ∈ w, isSpace c = false := by
  unfold fields at hw
  rw [List.mem_filter] at hw
  refine ⟨?_, splitWhere_free isSpace s w hw.1⟩
  intro h0
  simp [h0] at hw

/-- The words of a join with an all-white-space, non-empty separator are the words of the
parts, in order. -/
theorem fields_join (sep : Str) (hne : sep ≠ []) (hsp : ∀ c ∈ sep, isSpace c = true)
    (parts : List Str) : fields (join parts sep) = parts.flatMap fields := by
  induction parts with
  | nil => simp [join, List.intercalate, fields_nil]
  | cons l ls ih =>
    cases ls with
    | nil => simp [join, List.intercalate]
    | cons l2 ls2 =>
      rw [join_cons_cons, List.flatMap_cons, ← ih]
      cases sep with
      | nil => exact absurd rfl hne
      | cons c sp =>
        rw [List.append_assoc, List.cons_append,
          fields_append_sep _ _ _ (hsp c (by simp)),
          fields_append_spaces _ _ (fun d hd => hsp d (by simp [hd]))]

/-- Trimming does not change the words. -/
theorem fields_trimSpace (s : Str) : fields (trimSpace s) = fields s := by
  have h1 : ∀ t : Str, fields (t.dropWhile isSpace) = fields t := by
    intro t
    induction t with
    | nil => rfl
    | cons c t ih =>
      by_cases hc : isSpace c = true
      · rw [List.dropWhile_cons_of_pos hc, ih, fields_cons_space _ _ hc]
      · rw [List.dropWhile_cons_of_neg hc]
  have h2 : ∀ t : Str, fields (t.rdropWhile isSpace) = fields t := by
    intro t
    induction t using List.reverseRecOn with
    | nil => rfl
    | append_singleton t c ih =>
      by_cases hc : isSpace c = true
      · rw [List.rdropWhile_concat_pos _ _ _ hc, ih]
        have := fields_append_sep t [] c hc
        rw [this, fields_nil, List.append_nil]
      · rw [List.rdropWhile_concat_neg _ _ _ hc]
  unfold trimSpace
  rw [h2, h1]

/-! ## Theorems: line width -/

theorem lineFits_nil (width : Int) : lineFits width [] := by
  right; simp

theorem lineFits_of_append (width : Int) (a b : Str) (h : lineFits width (a ++ b)) :
    lineFits width a ∧ lineFits width b := by
  rcases h with h | h
  · rw [byteLen_append] at h
    exact ⟨Or.inl (by push_cast at h; omega), Or.inl (by push_cast at h; omega)⟩
  · exact ⟨Or.inr (fun c hc => h c (by simp [hc])), Or.inr (fun c hc => h c (by simp [hc]))⟩

theorem not_isSpace_ne_newline (w : Str) (h : ∀ c ∈ w, isSpace c = false) :
    ∀ c ∈ w, (c == '\n') = false := by
  intro c hc
  have := h c hc
  by_contra hcon
  have e : c = '\n' := by simpa using hcon
  rw [e] at this
  exact absurd this (by decide)

/-- Appending a string without line feed extends the last line. -/
theorem splitLines_append_free (b y : Str) (hy : ∀ c ∈ y, (c == '\n') = false)
    (xs : List Str) (l : Str) (hb : splitLines b = xs ++ [l]) :
    splitLines (b ++ y) = xs ++ [l ++ y] := by
  unfold splitLines at hb ⊢
  obtain ⟨xs2, l2, m, ys, h1, h2, h3⟩ := splitWhere_append (fun c => c == '\n') b y
  rw [splitWhere_of_free _ y hy] at h2
  rw [h1] at hb
  have hx := List.append_inj_left' hb (by simp)
  have hl := List.append_inj_right' hb (by simp)
  injection h2 with hm hys
  injection hl with hl _
  rw [h3, ← hm, ← hys, hx, hl]

/-- Appending a line feed and a string without line feed adds one line. -/
theorem splitLines_append_line (b w : Str) (hw : ∀ c ∈ w, (c == '\n') = false) :
    splitLines (b ++ '\n' :: w) = splitLines b ++ [w] := by
  unfold splitLines
  rw [splitWhere_append_sep _ _ _ _ (by simp), splitWhere_of_free _ w hw]

/-- Invariant of the wrapping loop: every finished line fits, the current line fits and
`lineLen` is its length; then every line of the result fits. -/
theorem wrapLoop_lines (width : Int) (ws : List Str) :
    ∀ (b : Str) (lineLen : Int) (xs : List Str) (l : Str),
      (∀ w ∈ ws, ∀ c ∈ w, isSpace c = false) →
      splitLines b = xs ++ [l] → (∀ x ∈ xs, lineFits width x) → lineFits width l →
      (byteLen l : Int) = lineLen →
      ∀ x ∈ splitLines (wrapLoop width ws b lineLen), lineFits width x := by
  induction ws with
  | nil =>
    intro b lineLen xs l _ hb hxs hl _ x hx
    rw [wrapLoop, hb] at hx
    rcases List.mem_append.mp hx with hx | hx
    · exact hxs x hx
    · simp at hx; rw [hx]; exact hl
  | cons w ws ih =>
    intro b lineLen xs l hws hb hxs hl hlen
    have hw : ∀ c ∈ w, isSpace c = false := hws w (by simp)
    have hw2 := not_isSpace_ne_newline w hw
    have hws2 : ∀ v ∈ ws, ∀ c ∈ v, isSpace c = false := fun v hv => hws v (by simp [hv])
    rw [wrapLoop]
    by_cases h0 : lineLen = 0
    · rw [if_pos h0]
      have hl0 : l = [] := byteLen_eq_zero l (by omega)
      have := splitLines_append_free b w hw2 xs l hb
      rw [hl0, List.nil_append] at this
      exact ih (b ++ w) (byteLen w) xs w hws2 this hxs (Or.inr hw) rfl
    · rw [if_neg h0]
      by_cases h1 : lineLen + 1 + (byteLen w : Int) > width
      · rw [if_pos h1]
        have := splitLines_append_line b w hw2
        rw [hb] at this
        refine ih (b ++ '\n' :: w) (byteLen w) (xs ++ [l]) w hws2 this ?_ (Or.inr hw) rfl
        intro x hx
        rcases List.mem_append.mp hx with hx | hx
        · exact hxs x hx
        · simp at hx; rw [hx]; exact hl
      · rw [if_neg h1]
        have hy : ∀ c ∈ (' ' :: w), (c == '\n') = false := by
          intro c hc
          rcases List.mem_cons.mp hc with rfl | hc
          · decide
          · exact hw2 c hc
        have := splitLines_append_free b (' ' :: w) hy xs l hb
        have hbl : (byteLen (l ++ ' ' :: w) : Int) = lineLen + 1 + (byteLen w : Int) := by
          rw [byteLen_append, byteLen_cons]
          have : (' ' : Char).utf8Size = 1 := by decide
          rw [this]; push_cast; omega
        exact ih (b ++ ' ' :: w) (lineLen + 1 + byteLen w) xs (l ++ ' ' :: w) hws2 this hxs
          (Or.inl (by omega)) hbl

/-- The wrapping loop keeps the words: the words of the result are those already written
followed by the remaining ones. -/
theorem wrapLoop_fields (width : Int) (ws : List Str) :
    ∀ (b : Str) (lineLen : Int),
      (∀ w ∈ ws, w ≠ [] ∧ ∀ c ∈ w, isSpace c = false) →
      0 ≤ lineLen → (lineLen = 0 → b = []) →
      fields (wrapLoop width ws b lineLen) = fields b ++ ws := by
  induction ws with
  | nil => intro b lineLen _ _ _; simp [wrapLoop]
  | cons w ws ih =>
    intro b lineLen hws hpos hb
    have hw := hws w (by simp)
    have hws2 : ∀ v ∈ ws, v ≠ [] ∧ ∀ c ∈ v, isSpace c = false :=
      fun v hv => hws v (by simp [hv])
    have hlen : 0 < byteLen w := by
      rcases Nat.eq_zero_or_pos (byteLen w) with h | h
      · exact absurd (byteLen_eq_zero w h) hw.1
      · exact h
    have hne : ∀ x : Str, x ++ w = [] → False := by
      intro x hx
      exact hw.1 (List.append_eq_nil.mp hx).2
    rw [wrapLoop]
    by_cases h0 : lineLen = 0
    · rw [if_pos h0, ih (b ++ w) (byteLen w) hws2 (by omega) (by omega), hb h0]
      simp [fields_of_word w hw.1 hw.2, fields_nil]
    · rw [if_neg h0]
      by_cases h1 : lineLen + 1 + (byteLen w : Int) > width
      · rw [if_pos h1, ih _ _ hws2 (by omega) (by omega),
          fields_append_sep _ _ _ (by decide), fields_of_word w hw.1 hw.2]
        simp
      · rw [if_neg h1, ih _ _ hws2 (by omega) (by omega),
          fields_append_sep _ _ _ (by decide), fields_of_word w hw.1 hw.2]
        simp

/-- Every line of a wrapped paragraph fits. -/
theorem wrapParagraph_lines (text : Str) (width : Int) :
    ∀ x ∈ splitLines (wrapParagraph text width), lineFits width x := by
  unfold wrapParagraph
  simp only []
  split_ifs with h
  · intro x hx
    simp [splitLines, splitWhere] at hx
    rw [hx]; exact lineFits_nil width
  · exact wrapLoop_lines width (fields text) [] 0 [] []
      (fun w hw => (fields_mem text w hw).2) (by simp [splitLines, splitWhere])
      (by simp) (lineFits_nil width) (by simp [byteLen])

/-- Wrapping a paragraph keeps its words. -/
theorem wrapParagraph_fields (text : Str) (width : Int) :
    fields (wrapParagraph text width) = fields text := by
  unfold wrapParagraph
  simp only []
  split_ifs with h
  · rw [List.length_eq_zero.mp h, fields_nil]
  · rw [wrapLoop_fields width (fields text) [] 0 (fun w hw => fields_mem text w hw)
      (le_refl 0) (fun _ => rfl), fields_nil]
    simp

/-- The paragraph loop of `wrapText` keeps, in order, the wrapped form of every part that
does not trim to the empty string. -/
theorem wrapText_foldl (width : Int) (parts : List Str) :
    ∀ out : List Str,
      parts.foldl (wrapTextStep width) out =
        out ++ parts.filterMap (fun p =>
          if trimSpace p = [] then none else some (wrapParagraph (trimSpace p) width)) := by
  induction parts with
  | nil => intro out; simp
  | cons p ps ih =>
    intro out
    rw [List.foldl_cons, ih]
    by_cases h : trimSpace p = []
    · simp [wrapTextStep, h]
    · simp [wrapTextStep, h]

/-- If the lines of `x` and of `y` have a property, so have those of `x`, a line feed, `y`. -/
theorem lines_append_newline (Q : Str → Prop) (x y : Str)
    (hx : ∀ l ∈ splitLines x, Q l) (hy : ∀ l ∈ splitLines y, Q l) :
    ∀ l ∈ splitLines (x ++ '\n' :: y), Q l := by
  intro l hl
  unfold splitLines at hl
  rw [splitWhere_append_sep _ _ _ _ (by simp)] at hl
  rcases List.mem_append.mp hl with h | h
  · exact hx l h
  · exact hy l h

/-- The lines of a join with line feeds as separator (one, or two for the paragraph
break) have a property that the empty line and the lines of every part have. -/
theorem lines_join (Q : Str → Prop) (hQ : Q []) (sep : Str)
    (hsep : sep = ['\n'] ∨ sep = ['\n', '\n']) (parts : List Str)
    (hparts : ∀ o ∈ parts, ∀ l ∈ splitLines o, Q l) :
    ∀ l ∈ splitLines (join parts sep), Q l := by
  have hnil : ∀ l ∈ splitLines [], Q l := by
    intro l hl
    simp [splitLines, splitWhere] at hl
    rw [hl]; exact hQ
  induction parts with
  | nil => simpa [join, List.intercalate] using hnil
  | cons o os ih =>
    cases os with
    | nil => simpa [join, List.intercalate] using hparts o (by simp)
    | cons o2 os2 =>
      have ih2 := ih (fun x hx => hparts x (by simp [hx]))
      rw [join_cons_cons]
      rcases hsep with rfl | rfl
      · rw [List.append_assoc]
        exact lines_append_newline Q _ _ (hparts o (by simp)) ih2
      · rw [List.append_assoc]
        exact lines_append_newline Q _ _ (hparts o (by simp))
          (lines_append_newline Q [] _ hnil ih2)

/-- Every line of a wrapped text fits. -/
theorem wrapText_lines (text : Str) (width : Int) :
    ∀ x ∈ splitLines (wrapText text width), lineFits width x := by
  unfold wrapText
  simp only []
  rw [wrapText_foldl]
  apply lines_join (lineFits width) (lineFits_nil width) paragraphBreak (Or.inr rfl)
  intro o ho
  simp only [List.nil_append, List.mem_filterMap] at ho
  obtain ⟨p, _, hp⟩ := ho
  split_ifs at hp
  injection hp with hp
  rw [← hp]
  exact wrapParagraph_lines _ _

/-- Wrapping a text keeps its words. -/
theorem wrapText_fields (text : Str) (width : Int) :
    fields (wrapText text width) = fields text := by
  have hpb1 : paragraphBreak ≠ [] := by simp [paragraphBreak]
  have hpb2 : ∀ c ∈ paragraphBreak, isSpace c = true := by
    intro c hc
    simp [paragraphBreak] at hc
    rw [hc]; decide
  conv_rhs => rw [← join_splitParagraphs text, fields_join _ hpb1 hpb2]
  unfold wrapText
  simp only []
  rw [wrapText_foldl, fields_join _ hpb1 hpb2, List.nil_append]
  induction splitParagraphs text with
  | nil => rfl
  | cons p ps ih =>
    rw [List.flatMap_cons, ← ih]
    by_cases h : trimSpace p = []
    · have : fields p = [] := by rw [← fields_trimSpace, h, fields_nil]
      simp [List.filterMap_cons, h, this]
    · simp [List.filterMap_cons, h, wrapParagraph_fields, fields_trimSpace]

/-- A property of lines that is inherited by the two halves of a line is inherited from
the lines of `x ++ y` by the lines of `x` and by the lines of `y`. -/
theorem lines_of_append (Q : Str → Prop) (hQ : ∀ a b, Q (a ++ b) → Q a ∧ Q b) (x y : Str)
    (h : ∀ l ∈ splitLines (x ++ y), Q l) :
    (∀ l ∈ splitLines x, Q l) ∧ (∀ l ∈ splitLines y, Q l) := by
  unfold splitLines at h ⊢
  obtain ⟨xs, l, m, ys, h1, h2, h3⟩ := splitWhere_append (fun c => c == '\n') x y
  rw [h3] at h
  rw [h1, h2]
  have hlm := hQ l m (h _ (by simp))
  constructor
  · intro z hz
    rcases List.mem_append.mp hz with hz | hz
    · exact h z (by simp [hz])
    · simp at hz; rw [hz]; exact hlm.1
  · intro z hz
    rcases List.mem_cons.mp hz with hz | hz
    · rw [hz]; exact hlm.2
    · exact h z (by simp [hz])

/-- Trimming keeps a property of lines that is inherited by the two halves of a line. -/
theorem lines_trimSpace (Q : Str → Prop) (hQ : ∀ a b, Q (a ++ b) → Q a ∧ Q b) (s : Str)
    (h : ∀ l ∈ splitLines s, Q l) : ∀ l ∈ splitLines (trimSpace s), Q l := by
  unfold trimSpace
  obtain ⟨a, ha⟩ := List.dropWhile_suffix (p := isSpace) (l := s)
  obtain ⟨b, hb⟩ := List.rdropWhile_prefix isSpace (s.dropWhile isSpace)
  rw [← ha] at h
  have h1 := (lines_of_append Q hQ _ _ h).2
  rw [← hb] at h1
  exact (lines_of_append Q hQ _ _ h1).1

/-- The pages of `paginate`: every line of every page fits the line width, and every word
of a page is a word of the text. -/
theorem paginate_lines (text : Str) (linesPerPage lineWidth : Int) (h : 1 ≤ linesPerPage)
    (pages : List Str) (hp : paginate text linesPerPage lineWidth = some pages) :
    ∀ page ∈ pages,
      (∀ l ∈ splitLines page, lineFits lineWidth l) ∧ ∀ w ∈ fields page, w ∈ fields text := by
  by_cases hne : trimSpace text = []
  · simp [paginate, hne] at hp
    rw [hp]; simp
  · obtain ⟨groups, hj, hg, _, _, hp2⟩ := paginate_groups text linesPerPage lineWidth h hne
    rw [hp2] at hp
    injection hp with hp
    intro page hpage
    rw [← hp, List.mem_map] at hpage
    obtain ⟨g, hgm, rfl⟩ := hpage
    have hsub : ∀ l ∈ g, l ∈ splitLines (wrapText text lineWidth) := by
      intro l hl
      rw [← hj]
      exact List.mem_flatten.mpr ⟨g, hgm, hl⟩
    constructor
    · apply lines_trimSpace (lineFits lineWidth) (lineFits_of_append lineWidth)
      apply lines_join (lineFits lineWidth) (lineFits_nil lineWidth) ['\n'] (Or.inl rfl)
      intro o ho l hl
      have hfree := splitWhere_free (fun c => c == '\n') (wrapText text lineWidth) o (hsub o ho)
      rw [splitLines, splitWhere_of_free _ o hfree] at hl
      simp at hl
      rw [hl]
      exact wrapText_lines text lineWidth o (hsub o ho)
    · intro w hw
      have hnl : ∀ c ∈ ['\n'], isSpace c = true := by
        intro c hc; simp at hc; rw [hc]; decide
      rw [fields_trimSpace, fields_join _ (by simp) hnl, List.mem_flatMap] at hw
      obtain ⟨l, hl, hwl⟩ := hw
      have e := fields_join ['\n'] (by simp) hnl (splitLines (wrapText text lineWidth))
      rw [join_splitLines, wrapText_fields] at e
      rw [e, List.mem_flatMap]
      exact ⟨l, hsub l hl, hwl⟩

theorem forall₂_mem_right {α β : Type} (R : α → β → Prop) (l1 : List α) (l2 : List β)
    (h : List.Forall₂ R l1 l2) : ∀ b ∈ l2, ∃ a ∈ l1, R a b := by
  induction h with
  | nil => intro b hb; simp at hb
  | cons hab _ ih =>
    intro b hb
    rcases List.mem_cons.mp hb with rfl | hb
    · exact ⟨_, by simp, hab⟩
    · obtain ⟨a, ha, hr⟩ := ih b hb
      exact ⟨a, by simp [ha], hr⟩

theorem forall₂_mem_left {α β : Type} (R : α → β → Prop) (l1 : List α) (l2 : List β)
    (h : List.Forall₂ R l1 l2) : ∀ a ∈ l1, ∃ b ∈ l2, R a b := by
  induction h with
  | nil => intro a ha; simp at ha
  | cons hab _ ih =>
    intro a ha
    rcases List.mem_cons.mp ha with rfl | ha
    · exact ⟨_, by simp, hab⟩
    · obtain ⟨b, hb, hr⟩ := ih a ha
      exact ⟨b, by simp [hb], hr⟩

theorem flatMap_flatten_eq (f : Str → List Str) (gs : List (List Str)) :
    gs.flatMap (fun g => g.flatMap f) = gs.flatten.flatMap f := by
  induction gs with
  | nil => rfl
  | cons g gs ih => simp [List.flatMap_cons, List.flatMap_append, ih]

/-- The words of a string are the words of its lines, in order. -/
theorem fields_eq_flatMap_lines (s : Str) : fields s = (splitLines s).flatMap fields := by
  have hnl : ∀ c ∈ ['\n'], isSpace c = true := by
    intro c hc; simp at hc; rw [hc]; decide
  have e := fields_join ['\n'] (by simp) hnl (splitLines s)
  rw [join_splitLines] at e
  exact e

/-- Pagination keeps the words: the words of the pages, read in order, are exactly the
words of the text.  No word is split, truncated, dropped or added. -/
theorem paginate_fields (text : Str) (linesPerPage lineWidth : Int) (h : 1 ≤ linesPerPage)
    (pages : List Str) (hp : paginate text linesPerPage lineWidth = some pages) :
    pages.flatMap fields = fields text := by
  by_cases hne : trimSpace text = []
  · have h0 : fields text = [] := by rw [← fields_trimSpace, hne, fields_nil]
    simp [paginate, hne] at hp
    rw [hp, h0]
    rfl
  · obtain ⟨groups, hj, _, _, _, hp2⟩ := paginate_groups text linesPerPage lineWidth h hne
    rw [hp2] at hp
    injection hp with hp
    have hnl : ∀ c ∈ ['\n'], isSpace c = true := by
      intro c hc; simp at hc; rw [hc]; decide
    have hpage : ∀ g : List Str, fields (trimSpace (join g ['\n'])) = g.flatMap fields := by
      intro g
      rw [fields_trimSpace, fields_join _ (by simp) hnl]
    have e0 : ∀ gs : List (List Str),
        (gs.map (fun g => trimSpace (join g ['\n']))).flatMap fields =
          gs.flatMap (fun g => g.flatMap fields) := by
      intro gs
      induction gs with
      | nil => rfl
      | cons g gs ih => rw [List.map_cons, List.flatMap_cons, List.flatMap_cons, hpage, ih]
    have e1 : pages.flatMap fields = groups.flatMap (fun g => g.flatMap fields) := by
      rw [← hp, e0]
    rw [e1, flatMap_flatten_eq, hj, ← fields_eq_flatMap_lines, wrapText_fields]

/-- A word is not longer than the string it is a word of. -/
theorem byteLen_piece_le (p : Char → Bool) (s : Str) :
    ∀ l ∈ splitWhere p s, byteLen l ≤ byteLen s := by
  induction s with
  | nil => intro l hl; simp [splitWhere] at hl; rw [hl]
  | cons c rest ih =>
    intro l hl
    simp only [splitWhere] at hl
    rw [byteLen_cons]
    by_cases h : p c = true
    · simp only [h, if_true] at hl
      rcases List.mem_cons.mp hl with rfl | hl
      · simp [byteLen]
      · have := ih l hl; omega
    · simp only [h] at hl
      cases hs : splitWhere p rest with
      | nil => exact absurd hs (splitWhere_ne_nil p rest)
      | cons l1 ls =>
        rw [hs] at hl ih
        simp only [consHead, Bool.false_eq_true, if_false] at hl
        rcases List.mem_cons.mp hl with rfl | hl
        · rw [byteLen_cons]
          have := ih l1 (by simp)
          omega
        · have := ih l (by simp [hl]); omega

theorem length_le_byteLen (s : Str) : s.length ≤ byteLen s := by
  induction s with
  | nil => simp [byteLen]
  | cons c rest ih =>
    rw [byteLen_cons, List.length_cons]
    have := Char.utf8Size_pos c
    omega

/-- **C2.** For every chapter sequence and every `(width, lines)`, `buildBookPagesForSize`
returns pages (`pp` lists them chapter by chapter) such that:
* the words of the pages of a chapter, read in order, are exactly the words of its
  page-source text `Title + "\n\n" + Text`: no word is split, truncated, dropped or added;
* every line of every page has length at most `max(width, 20)`, except a line that is a
  single word longer than that width, which is a whole word of the page-source text of a
  chapter (for the length in bytes, which the code compares, and for the length in
  characters);
* every word of a page-source text that is longer than `max(width, 20)` is, whole, a line
  of some page. -/
theorem buildBookPagesForSize_lineWidth (chapters : List Chapter) (width lines : Int) :
    ∃ (pp : List (List Str)) (chs : List Chapter),
      buildBookPagesForSize chapters width lines = some (pp.flatten, chs) ∧
      List.Forall₂ (fun ch ps =>
        ps.flatMap fields = fields (ch.Title ++ ['\n', '\n'] ++ ch.Text)) chapters pp ∧
      (∀ page ∈ pp.flatten, ∀ line ∈ splitLines page,
        ((byteLen line : Int) ≤ max width 20 ∨
          (line ≠ [] ∧ (∀ c ∈ line, isSpace c = false) ∧ max width 20 < (byteLen line : Int) ∧
            ∃ ch ∈ chapters, line ∈ fields (ch.Title ++ ['\n', '\n'] ++ ch.Text))) ∧
        ((line.length : Int) ≤ max width 20 ∨
          (line ≠ [] ∧ (∀ c ∈ line, isSpace c = false) ∧ max width 20 < (line.length : Int) ∧
            ∃ ch ∈ chapters, line ∈ fields (ch.Title ++ ['\n', '\n'] ++ ch.Text)))) ∧
      (∀ ch ∈ chapters, ∀ w ∈ fields (ch.Title ++ ['\n', '\n'] ++ ch.Text),
        max width 20 < (byteLen w : Int) → ∃ page ∈ pp.flatten, w ∈ splitLines page) := by
  have hw : (if width < 20 then 20 else width) = max width 20 := by
    rw [max_def]; split_ifs <;> omega
  have hl : (if lines < 5 then 5 else lines) = max lines 5 := by
    rw [max_def]; split_ifs <;> omega
  have hl1 : 1 ≤ max lines 5 := by rw [max_def]; split_ifs <;> omega
  have hw20 : (20 : Int) ≤ max width 20 := le_max_right _ _
  obtain ⟨pp, chs, hf, hb, _, _⟩ := buildLoop_spec (max width 20) (max lines 5) hl1 chapters [] []
  have hwords : List.Forall₂ (fun (ch : Chapter) (ps : List Str) =>
      ps.flatMap fields = fields (ch.Title ++ ['\n', '\n'] ++ ch.Text)) chapters pp := by
    refine List.Forall₂.imp ?_ hf
    intro ch ps hpag
    rw [paginate_fields _ _ _ hl1 ps hpag, fields_trimSpace]
  refine ⟨pp, chs, ?_, hwords, ?_, ?_⟩
  · unfold buildBookPagesForSize
    simp only [hw, hl]
    simpa using hb
  · intro page hpage line hline
    obtain ⟨ps, hps, hpageps⟩ := List.mem_flatten.mp hpage
    obtain ⟨ch, hch, hpag⟩ := forall₂_mem_right _ _ _ hf ps hps
    obtain ⟨hfit, hwordsOf⟩ := paginate_lines _ _ _ hl1 ps hpag page hpageps
    have hlen := length_le_byteLen line
    have key : (byteLen line : Int) ≤ max width 20 ∨
        (line ≠ [] ∧ (∀ c ∈ line, isSpace c = false) ∧
          ∃ ch ∈ chapters, line ∈ fields (ch.Title ++ ['\n', '\n'] ++ ch.Text)) := by
      by_cases hle : (byteLen line : Int) ≤ max width 20
      · exact Or.inl hle
      · right
        have hfree : ∀ c ∈ line, isSpace c = false := by
          rcases hfit line hline with h | h
          · exact absurd h hle
          · exact h
        have hne : line ≠ [] := by
          intro h0
          rw [h0] at hle
          simp [byteLen] at hle
        refine ⟨hne, hfree, ch, hch, ?_⟩
        rw [← fields_trimSpace]
        apply hwordsOf
        rw [fields_eq_flatMap_lines, List.mem_flatMap]
        exact ⟨line, hline, by rw [fields_of_word line hne hfree]; simp⟩
    constructor
    · rcases key with h | ⟨h1, h2, h3⟩
      · exact Or.inl h
      · by_cases hle : (byteLen line : Int) ≤ max width 20
        · exact Or.inl hle
        · exact Or.inr ⟨h1, h2, by omega, h3⟩
    · rcases key with h | ⟨h1, h2, h3⟩
      · exact Or.inl (by omega)
      · by_cases hle : (line.length : Int) ≤ max width 20
        · exact Or.inl hle
        · exact Or.inr ⟨h1, h2, by omega, h3⟩
  · intro ch hch w hw2 hlong
    obtain ⟨ps, hps, hpag⟩ := forall₂_mem_left _ _ _ hf ch hch
    have hfl := paginate_fields _ _ _ hl1 ps hpag
    rw [fields_trimSpace] at hfl
    rw [← hfl, List.mem_flatMap] at hw2
    obtain ⟨page, hpage, hwp⟩ := hw2
    refine ⟨page, List.mem_flatten.mpr ⟨ps, hps, hpage⟩, ?_⟩
    rw [fields_eq_flatMap_lines, List.mem_flatMap] at hwp
    obtain ⟨line, hline, hwl⟩ := hwp
    have hfit := (paginate_lines _ _ _ hl1 ps hpag page hpage).1 line hline
    have hle : byteLen w ≤ byteLen line := by
      unfold fields at hwl
      exact byteLen_piece_le isSpace line w (List.mem_filter.mp hwl).1
    rcases hfit with h | h
    · exfalso; omega
    · have hne : line ≠ [] := by
        intro h0
        rw [h0, fields_nil] at hwl
        simp at hwl
      rw [fields_of_word line hne h] at hwl
      simp at hwl
      rw [hwl]
      exact hline

/-! ## Theorems: `remapPage` in floating point -/

/-- The rounding of quotients is to the nearest integer: the result `m` of
`roundHalfEven n d` satisfies `|n / d - m| ≤ 1/2`. -/
theorem roundHalfEven_nearest (n d : Nat) (hd : 0 < d) :
    2 * n ≤ (2 * roundHalfEven n d + 1) * d ∧ 2 * roundHalfEven n d * d ≤ 2 * n + d := by
  have hm := Nat.div_add_mod n d
  have hlt := Nat.mod_lt n hd
  have e1 : ∀ q : Nat, (2 * q + 1) * d = 2 * (d * q) + d := by intro q; ring
  have e2 : ∀ q : Nat, 2 * q * d = 2 * (d * q) := by intro q; ring
  have e3 : d * (n / d + 1) = d * (n / d) + d := by ring
  unfold roundHalfEven
  simp only []
  split_ifs <;> rw [e1, e2] <;> omega

set_option maxRecDepth 100000 in
/-- The model of `float64` on well-known values: `1/3` and `1/10` round to the doubles
`6004799503160661 * 2^-54` and `7205759403792794 * 2^-56`; and the computation of
`remapPage(15, 22, 22)` step by step: `15/22` rounds to `6141272219141585 * 2^-53`, its
product with `22` to `8444249301319679 * 2^-49 = 14.999999999999998`, which converts to
the integer `14`. -/
theorem f64_known_values :
    F64.div (F64.ofInt 1) (F64.ofInt 3) = ⟨false, 6004799503160661, -54⟩ ∧
    F64.div (F64.ofInt 1) (F64.ofInt 10) = ⟨false, 7205759403792794, -56⟩ ∧
    F64.div (F64.ofInt 15) (F64.ofInt 22) = ⟨false, 6141272219141585, -53⟩ ∧
    F64.mul ⟨false, 6141272219141585, -53⟩ (F64.ofInt 22) = ⟨false, 8444249301319679, -49⟩ ∧
    F64.toInt ⟨false, 8444249301319679, -49⟩ = 14 := by
  decide

set_option maxRecDepth 100000 in
/-- **C5 fails on the code.** With 22 pages before and after, page 15 is remapped to
page 14: `15 / 22` rounds down in `float64`, the product with `22` is just below `15`,
and the conversion to `int` truncates it to `14`. -/
theorem remapPage_same_total_moves : remapPage 15 22 22 = 14 ∧ (0 : Int) ≤ 15 ∧ (15 : Int) < 22 := by
  decide

set_option maxRecDepth 100000 in
/-- **C6 fails on the code.** Going from 11 to 55 pages, page 3 is remapped to page 14,
whereas `⌊(3 / 11) * 55⌋ = 15` clamped into `[0, 54]` is `15`.  The scenario
`remapPage(50, 100, 50) = 25` of the claim does hold. -/
theorem remapPage_not_exact_floor :
    remapPage 3 11 55 = 14 ∧ max 0 (min (⌊((3 : ℚ) / 11) * 55⌋) (55 - 1)) = 15 ∧
      remapPage 50 100 50 = 25 := by
  refine ⟨by decide, ?_, by decide⟩
  have : ((3 : ℚ) / 11) * 55 = ((15 : Int) : ℚ) := by norm_num
  rw [this, Int.floor_intCast]
  decide

/-! ## Theorems: `stripTags` -/

/-- The loop on runes appends to the builder what the specification keeps of the rest of
the input, less the `>` runes. -/
theorem stripRunes_eq (s : Str) :
    ∀ (inTag : Bool) (b : Str),
      stripRunes s inTag b = b ++ (removeSpans inTag s).filter (fun c => c != '>') := by
  induction s with
  | nil => intro inTag b; cases inTag <;> simp [stripRunes, removeSpans]
  | cons r rest ih =>
    intro inTag b
    rw [stripRunes]
    by_cases h1 : r = '<'
    · subst h1
      rw [if_pos rfl, ih]
      cases inTag
      · simp [removeSpans]
      · have : ('<' : Char) ≠ '>' := by decide
        simp [removeSpans, this]
    · rw [if_neg h1]
      by_cases h2 : r = '>'
      · subst h2
        rw [if_pos rfl, ih]
        cases inTag
        · simp [removeSpans, h1]
        · simp [removeSpans]
      · rw [if_neg h2]
        cases inTag
        · simp [removeSpans, h1, h2, ih]
        · simp [removeSpans, h2, ih]

theorem encodeString_append (a b : Str) :
    encodeString (a ++ b) = encodeString a ++ encodeString b := by
  simp [encodeString, List.flatMap_append]

/-- The loop on bytes is the loop on runes applied to the runes that `range` reads, the
builder being encoded at the end. -/
theorem stripLoop_eq_stripRunes :
    ∀ (fuel : Nat) (s : Bytes) (inTag : Bool) (b : Str),
      stripLoop fuel s inTag (encodeString b) =
        encodeString (stripRunes (rangeRunes fuel s) inTag b) := by
  intro fuel
  induction fuel with
  | zero => intro s inTag b; simp [stripLoop, rangeRunes, stripRunes]
  | succ fuel ih =>
    intro s inTag b
    cases s with
    | nil => simp [stripLoop, rangeRunes, stripRunes]
    | cons x s =>
      rw [stripLoop, rangeRunes]
      simp only []
      rw [stripRunes]
      split_ifs
      · exact ih _ _ _
      · exact ih _ _ _
      · have e : encodeString b ++ encodeRune (decodeRune (x :: s)).1 =
            encodeString (b ++ [(decodeRune (x :: s)).1]) := by
          simp [encodeString_append, encodeString]
        rw [e]
        exact ih _ _ _
      · exact ih _ _ _

/-! ## Theorems: navigation -/

/-- **C10 fails on the code.** The book built at 80 columns and 25 lines from a chapter
with text and a last chapter with neither title nor body has one page, and its last
chapter is stamped with `StartPage = 1`.  From the valid position `Page = 0`, in list
mode, selecting that chapter with `enter` gives `Page = 1 = len(Pages)`: the position is
out of range. -/
theorem update_select_chapter_out_of_range (listUpdate : Option Nat → Msg → Option Nat) :
    ∃ (pages : List Str) (chs : List Chapter) (m : Model) (cmd : Cmd),
      buildBookPagesForSize emptyTailChapters 80 25 = some (pages, chs) ∧
      pages.length = 1 ∧
      update listUpdate
        { book := { Chapters := chs, Pages := pages }, state := { Chapter := 0, Page := 0 },
          mode := Mode.modeList, selected := some 1, width := 0, height := 0,
          pageWidth := 0, pageLines := 0, err := Option.none }
        (Msg.key "enter") = some (m, cmd) ∧
      m.book.Pages = pages ∧ m.state.Page = 1 ∧
      ¬ (m.state.Page < (m.book.Pages.length : Int)) := by
  refine ⟨["One\n\nHello".toList],
    [⟨"One".toList, "c1".toList, "Hello".toList, 0⟩, ⟨[], "c2".toList, [], 1⟩], _, _,
    by decide, rfl, rfl, rfl, rfl, by decide⟩

/-! ## Theorems: chapter extraction -/

theorem dropLit_eq_some (lit : Str) : ∀ s r : Str, dropLit lit s = some r ↔ s = lit ++ r := by
  induction lit with
  | nil => intro s r; simp [dropLit]
  | cons c lit ih =>
    intro s r
    cases s with
    | nil => simp [dropLit]
    | cons d s =>
      simp only [dropLit, List.cons_append, List.cons.injEq]
      by_cases h : c = d
      · simp [h, ih]
      · simp [h]
        intro h2; exact absurd h2.symm h

/-- What `findLit` returns: the text splits at an occurrence of `lit`, and `lit` does not
occur at any earlier position. -/
theorem findLit_some (lit : Str) (hlit : lit ≠ []) :
    ∀ s before r : Str, findLit lit s = some (before, r) →
      s = before ++ lit ++ r ∧ ¬ ∃ x y : Str, before = x ++ lit ++ y := by
  intro s
  induction s with
  | nil =>
    intro before r h
    cases lit with
    | nil => exact absurd rfl hlit
    | cons c lit => simp [findLit, dropLit] at h
  | cons c s ih =>
    intro before r h
    rw [findLit] at h
    cases hd : dropLit lit (c :: s) with
    | some r1 =>
      rw [hd] at h
      simp at h
      obtain ⟨h1, h2⟩ := h
      subst h1; subst h2
      refine ⟨by simpa using (dropLit_eq_some lit _ _).mp hd, ?_⟩
      rintro ⟨x, y, hxy⟩
      have := congrArg List.length hxy
      simp at this
      exact hlit (List.length_eq_zero.mp (by omega))
    | none =>
      rw [hd] at h
      cases hf : findLit lit s with
      | none => rw [hf] at h; simp at h
      | some br =>
        obtain ⟨b1, r1⟩ := br
        rw [hf] at h
        simp at h
        obtain ⟨h1, h2⟩ := h
        subst h1; subst h2
        obtain ⟨e1, e2⟩ := ih b1 r1 hf
        refine ⟨by rw [e1]; simp, ?_⟩
        rintro ⟨x, y, hxy⟩
        cases x with
        | nil =>
          have : dropLit lit (c :: s) = some (y ++ lit ++ r1) := by
            rw [dropLit_eq_some, e1]
            simp only [List.nil_append] at hxy
            rw [← List.cons_append, ← List.cons_append, hxy]
            simp
          rw [hd] at this
          exact absurd this (by simp)
        | cons x0 x =>
          simp only [List.cons_append, List.cons.injEq] at hxy
          exact e2 ⟨x, y, hxy.2⟩

/-- If `lit` occurs in a text, `findLit` finds an occurrence. -/
theorem findLit_of_occurs (lit : Str) :
    ∀ x y : Str, findLit lit (x ++ lit ++ y) ≠ none := by
  intro x
  induction x with
  | nil =>
    intro y
    have h := (dropLit_eq_some lit (lit ++ y) y).mpr rfl
    rw [List.nil_append]
    revert h
    generalize lit ++ y = z
    intro h
    cases z <;> simp [findLit, h]
  | cons c x ih =>
    intro y
    simp only [List.cons_append]
    rw [findLit]
    cases hd : dropLit lit (c :: (x ++ lit ++ y)) with
    | some r => simp
    | none =>
      have := ih y
      cases hf : findLit lit (x ++ lit ++ y) with
      | none => exact absurd hf this
      | some br => simp

/-- A match of the marker pattern at the start of `s`: `s` starts with the marker text of
the anchor and the title returned, the anchor is not empty and has no `"`, and the title
does not contain `</h3>`. -/
theorem matchMarkerAt_sound (s a t r : Str) (h : matchMarkerAt s = some (a, t, r)) :
    s = markerText a t ++ r ∧ a ≠ [] ∧ (∀ c ∈ a, c ≠ '"') ∧
      ¬ ∃ x y : Str, t = x ++ closeLit ++ y := by
  unfold matchMarkerAt at h
  cases h1 : dropLit openLit s with
  | none => rw [h1] at h; simp at h
  | some r1 =>
    rw [h1] at h
    simp only [] at h
    by_cases ha : r1.takeWhile (fun c => c != '"') = []
    · rw [if_pos ha] at h; simp at h
    · rw [if_neg ha] at h
      cases h2 : dropLit midLit (r1.dropWhile (fun c => c != '"')) with
      | none => rw [h2] at h; simp at h
      | some r2 =>
        rw [h2] at h
        simp only [] at h
        cases h3 : findLit closeLit r2 with
        | none => rw [h3] at h; simp at h
        | some tr =>
          obtain ⟨t1, rest⟩ := tr
          rw [h3] at h
          simp at h
          obtain ⟨e1, e2, e3⟩ := h
          subst e2; subst e3
          have f1 := (dropLit_eq_some _ _ _).mp h1
          have f2 := (dropLit_eq_some _ _ _).mp h2
          obtain ⟨f3, f4⟩ := findLit_some closeLit (by simp [closeLit]) _ _ _ h3
          have f5 := List.takeWhile_append_dropWhile (fun c => c != '"') r1
          refine ⟨?_, ?_, ?_, f4⟩
          · rw [f1, ← f5, f2, f3, e1]
            simp [markerText, List.append_assoc]
          · rw [← e1]; exact ha
          · intro c hc
            rw [← e1] at hc
            have := List.mem_takeWhile_imp hc
            simpa using this

/-- At the start of a marker text the marker pattern matches. -/
theorem matchMarkerAt_complete (a t post : Str) (ha : a ≠ []) (hq : ∀ c ∈ a, c ≠ '"') :
    matchMarkerAt (markerText a t ++ post) ≠ none := by
  have hp : ∀ c ∈ a, (fun c => c != '"') c = true := by
    intro c hc; simpa using hq c hc
  have e : markerText a t ++ post = openLit ++ (a ++ (midLit ++ (t ++ closeLit ++ post))) := by
    simp [markerText, List.append_assoc]
  have h1 : dropLit openLit (markerText a t ++ post) =
      some (a ++ (midLit ++ (t ++ closeLit ++ post))) := by
    rw [dropLit_eq_some, e]
  have h2 : (a ++ (midLit ++ (t ++ closeLit ++ post))).takeWhile (fun c => c != '"') = a := by
    rw [List.takeWhile_append_of_pos hp]
    simp [midLit]
  have h3 : (a ++ (midLit ++ (t ++ closeLit ++ post))).dropWhile (fun c => c != '"') =
      midLit ++ (t ++ closeLit ++ post) := by
    rw [List.dropWhile_append_of_pos hp]
    simp [midLit]
  have h4 : dropLit midLit (midLit ++ (t ++ closeLit ++ post)) = some (t ++ closeLit ++ post) := by
    rw [dropLit_eq_some]
  unfold matchMarkerAt
  rw [h1]
  simp only [h2, h3, h4, if_neg ha]
  have h5 := findLit_of_occurs closeLit t post
  cases hf : findLit closeLit (t ++ closeLit ++ post) with
  | none => exact absurd hf h5
  | some tr => simp

theorem markerText_ne_nil (a t : Str) : markerText a t ≠ [] := by
  simp [markerText, openLit]

/-- Where the search for the next marker fails, the text contains no marker. -/
theorem findNext_none (s : Str) (h : findNext s = none) : ¬ ContainsMarker s := by
  induction s with
  | nil =>
    rintro ⟨pre, a, t, post, _, _, e⟩
    have := congrArg List.length e
    have h2 := markerText_ne_nil a t
    simp at this
    exact h2 (List.length_eq_zero.mp (by omega))
  | cons c s ih =>
    rw [findNext] at h
    cases hm : matchMarkerAt (c :: s) with
    | some x => obtain ⟨a, t, r⟩ := x; rw [hm] at h; simp at h
    | none =>
      rw [hm] at h
      cases hf : findNext s with
      | some x => obtain ⟨g, a, t, r⟩ := x; rw [hf] at h; simp at h
      | none =>
        rintro ⟨pre, a, t, post, ha, hq, e⟩
        cases pre with
        | nil =>
          rw [List.nil_append] at e
          rw [e] at hm
          exact matchMarkerAt_complete a t post ha hq hm
        | cons p pre =>
          simp only [List.cons_append, List.cons.injEq] at e
          exact ih hf ⟨pre, a, t, post, ha, hq, e.2⟩

/-- The next marker found: the text splits into a gap without marker, the marker text and
the rest; the anchor and the title are well formed. -/
theorem findNext_some (s : Str) :
    ∀ g a t r : Str, findNext s = some (g, a, t, r) →
      s = g ++ markerText a t ++ r ∧ a ≠ [] ∧ (∀ c ∈ a, c ≠ '"') ∧
        (¬ ∃ x y : Str, t = x ++ closeLit ++ y) ∧ ¬ ContainsMarker g := by
  induction s with
  | nil => intro g a t r h; simp [findNext] at h
  | cons c s ih =>
    intro g a t r h
    rw [findNext] at h
    cases hm : matchMarkerAt (c :: s) with
    | some x =>
      obtain ⟨a1, t1, r1⟩ := x
      rw [hm] at h
      simp at h
      obtain ⟨e1, e2, e3, e4⟩ := h
      subst e1; subst e2; subst e3; subst e4
      obtain ⟨f1, f2, f3, f4⟩ := matchMarkerAt_sound _ _ _ _ hm
      refine ⟨by simpa using f1, f2, f3, f4, ?_⟩
      rintro ⟨pre, a, t, post, _, _, e⟩
      have := congrArg List.length e
      have h2 := markerText_ne_nil a t
      simp at this
      exact h2 (List.length_eq_zero.mp (by omega))
    | none =>
      rw [hm] at h
      cases hf : findNext s with
      | none => rw [hf] at h; simp at h
      | some x =>
        obtain ⟨g1, a1, t1, r1⟩ := x
        rw [hf] at h
        simp at h
        obtain ⟨e1, e2, e3, e4⟩ := h
        subst e1; subst e2; subst e3; subst e4
        obtain ⟨f1, f2, f3, f4, f5⟩ := ih _ _ _ _ hf
        refine ⟨by rw [f1]; simp, f2, f3, f4, ?_⟩
        rintro ⟨pre, a, t, post, ha, hq, e⟩
        cases pre with
        | nil =>
          rw [List.nil_append] at e
          have e2 : c :: s = markerText a t ++ (post ++ markerText a1 t1 ++ r1) := by
            rw [f1, ← List.cons_append, ← List.cons_append, e]
            simp [List.append_assoc]
          rw [e2] at hm
          exact matchMarkerAt_complete a t _ ha hq hm
        | cons p pre =>
          simp only [List.cons_append, List.cons.injEq] at e
          exact f5 ⟨pre, a, t, post, ha, hq, e.2⟩

/-- The slice of `x ++ y ++ z` between the offsets `len(x)` and `len(x) + len(y)` is `y`. -/
theorem slice_middle {α : Type} (x y z : List α) (i j : Nat) (hi : i = x.length)
    (hj : j = x.length + y.length) : slice (x ++ y ++ z) i j = y := by
  subst hi; subst hj
  unfold slice
  rw [List.append_assoc, List.drop_left]
  simp

theorem markerText_length (a t : Str) :
    (markerText a t).length =
      openLit.length + a.length + midLit.length + t.length + closeLit.length := by
  simp [markerText]
  omega

/-- In reader mode every key keeps a valid position valid: next page, previous page, home
and end (and the keys that do not move) leave `0 ≤ Page < len(Pages)` true.  Only the
selection of a chapter, in list mode, can break it. -/
theorem update_reader_keeps_range (listUpdate : Option Nat → Msg → Option Nat) (m : Model)
    (name : String) (hmode : m.mode = Mode.modeReader) (h0 : 0 ≤ m.state.Page)
    (h1 : m.state.Page < (m.book.Pages.length : Int)) :
    ∃ (m2 : Model) (cmd : Cmd),
      update listUpdate m (Msg.key name) = some (m2, cmd) ∧ m2.book = m.book ∧
      0 ≤ m2.state.Page ∧ m2.state.Page < (m2.book.Pages.length : Int) := by
  simp only [update, hmode]
  split_ifs <;> simp [updateTail, hmode] <;> omega

/-- Decoding undoes encoding: at the start of the encoding of a rune, followed by any
bytes, `range` reads that rune and takes the bytes of its encoding. -/
theorem decodeRune_encodeRune (c : Char) (rest : Bytes) :
    decodeRune (encodeRune c ++ rest) = (c, (encodeRune c).length) := by
  have hv : c.toNat < 0xD800 ∨ (0xDFFF < c.toNat ∧ c.toNat < 0x110000) := c.valid
  have hc : ∀ m : Nat, m = c.toNat → Char.ofNat m = c := by
    intro m hm; rw [hm, Char.ofNat_toNat]
  unfold encodeRune
  simp only []
  generalize c.toNat = n at hv hc
  by_cases h1 : n < 0x80
  · rw [if_pos h1]
    simp only [List.cons_append, List.nil_append, decodeRune, if_pos h1, List.length_singleton]
    rw [hc n rfl]
  · rw [if_neg h1]
    by_cases h2 : n < 0x800
    · rw [if_pos h2]
      have a1 : ¬ (0xC0 + n / 64 < 0x80) := by omega
      have a2 : ¬ (0xC0 + n / 64 < 0xC2 ∨ 0xF4 < 0xC0 + n / 64) := by omega
      have a3 : 0xC0 + n / 64 < 0xE0 := by omega
      have a4 : 0x80 ≤ 0x80 + n % 64 ∧ 0x80 + n % 64 ≤ 0xBF := by omega
      simp only [List.cons_append, List.nil_append, decodeRune, if_neg a1, if_neg a2, if_pos a3,
        if_pos a4, List.length_cons, List.length_nil]
      rw [hc _ (by omega)]
    · rw [if_neg h2]
      by_cases h3 : n < 0x10000
      · rw [if_pos h3]
        have a1 : ¬ (0xE0 + n / 4096 < 0x80) := by omega
        have a2 : ¬ (0xE0 + n / 4096 < 0xC2 ∨ 0xF4 < 0xE0 + n / 4096) := by omega
        have a3 : ¬ (0xE0 + n / 4096 < 0xE0) := by omega
        have a4 : 0xE0 + n / 4096 < 0xF0 := by omega
        have a5 : (if 0xE0 + n / 4096 = 0xE0 then 0xA0 else 0x80) ≤ 0x80 + n / 64 % 64 ∧
            0x80 + n / 64 % 64 ≤ (if 0xE0 + n / 4096 = 0xED then 0x9F else 0xBF) ∧
            0x80 ≤ 0x80 + n % 64 ∧ 0x80 + n % 64 ≤ 0xBF := by
          split_ifs <;> omega
        simp only [List.cons_append, List.nil_append, decodeRune, if_neg a1, if_neg a2, if_neg a3,
          if_pos a4, if_pos a5, List.length_cons, List.length_nil]
        rw [hc _ (by omega)]
      · rw [if_neg h3]
        have a1 : ¬ (0xF0 + n / 262144 < 0x80) := by omega
        have a2 : ¬ (0xF0 + n / 262144 < 0xC2 ∨ 0xF4 < 0xF0 + n / 262144) := by omega
        have a3 : ¬ (0xF0 + n / 262144 < 0xE0) := by omega
        have a4 : ¬ (0xF0 + n / 262144 < 0xF0) := by omega
        have a5 : (if 0xF0 + n / 262144 = 0xF0 then 0x90 else 0x80) ≤ 0x80 + n / 4096 % 64 ∧
            0x80 + n / 4096 % 64 ≤ (if 0xF0 + n / 262144 = 0xF4 then 0x8F else 0xBF) ∧
            0x80 ≤ 0x80 + n / 64 % 64 ∧ 0x80 + n / 64 % 64 ≤ 0xBF ∧
            0x80 ≤ 0x80 + n % 64 ∧ 0x80 + n % 64 ≤ 0xBF := by
          split_ifs <;> omega
        simp only [List.cons_append, List.nil_append, decodeRune, if_neg a1, if_neg a2, if_neg a3,
          if_neg a4, if_pos a5, List.length_cons, List.length_nil]
        rw [hc _ (by omega)]

theorem encodeRune_length_pos (c : Char) : 0 < (encodeRune c).length := by
  unfold encodeRune
  simp only []
  split_ifs <;> simp

/-- A `range` step takes between one and four bytes. -/
theorem decodeRune_size (x : Nat) (s : Bytes) :
    1 ≤ (decodeRune (x :: s)).2 ∧ (decodeRune (x :: s)).2 ≤ 4 := by
  unfold decodeRune
  simp only []
  split_ifs <;> (try split) <;> (try split_ifs) <;> simp

/-- With at least `len(s)` units of fuel the runes read do not depend on the fuel: the
`range` loop ends. -/
theorem rangeRunes_fuel :
    ∀ (fuel1 fuel2 : Nat) (s : Bytes), s.length ≤ fuel1 → s.length ≤ fuel2 →
      rangeRunes fuel1 s = rangeRunes fuel2 s := by
  intro fuel1
  induction fuel1 with
  | zero =>
    intro fuel2 s h1 _
    have : s = [] := List.length_eq_zero.mp (by omega)
    subst this
    cases fuel2 <;> simp [rangeRunes]
  | succ fuel1 ih =>
    intro fuel2 s h1 h2
    cases s with
    | nil => cases fuel2 <;> simp [rangeRunes]
    | cons x s =>
      cases fuel2 with
      | zero => simp at h2
      | succ fuel2 =>
        rw [rangeRunes, rangeRunes]
        simp only []
        have hs := (decodeRune_size x s).1
        have hd : ((x :: s).drop (decodeRune (x :: s)).2).length ≤ s.length := by
          simp only [List.length_drop, List.length_cons]
          omega
        simp only [List.length_cons] at h1 h2
        rw [ih fuel2 _ (by omega) (by omega)]

/-- On the bytes of a string given by its runes, `range` reads back these runes. -/
theorem rangeRunes_encodeString (text : Str) :
    ∀ fuel : Nat, (encodeString text).length ≤ fuel →
      rangeRunes fuel (encodeString text) = text := by
  induction text with
  | nil => intro fuel _; cases fuel <;> simp [encodeString, rangeRunes]
  | cons c text ih =>
    intro fuel h
    have e : encodeString (c :: text) = encodeRune c ++ encodeString text := by
      simp [encodeString]
    have hpos := encodeRune_length_pos c
    rw [e] at h ⊢
    simp only [List.length_append] at h
    cases fuel with
    | zero => omega
    | succ fuel =>
      cases hb : encodeRune c ++ encodeString text with
      | nil =>
        have := congrArg List.length hb
        simp only [List.length_append, List.length_nil] at this
        omega
      | cons x s =>
        rw [rangeRunes]
        simp only []
        rw [← hb, decodeRune_encodeRune]
        simp only [List.drop_left]
        rw [ih fuel (by omega)]

/-- **C8 as stated fails.** The bytes `a>b` contain no `<`, hence no span, and the
specification keeps all of them; `stripTags` drops the `>`.  The bytes `61 FF 62` contain
neither `<` nor `>`, yet `stripTags` does not return them: the invalid byte `FF` comes
back as the three bytes of U+FFFD. -/
theorem stripTags_drops_stray_close :
    removeSpans false "a>b".toList = "a>b".toList ∧
      encodeString "a>b".toList = [0x61, 0x3E, 0x62] ∧
      stripTags [0x61, 0x3E, 0x62] = [0x61, 0x62] ∧
      stripTags (encodeString "a>b".toList) ≠ encodeString (removeSpans false "a>b".toList) ∧
      stripTags [0x61, 0xFF, 0x62] = [0x61, 0xEF, 0xBF, 0xBD, 0x62] := by
  decide

/-- **C8, amended.** For every input string (any bytes), `stripTags` returns the UTF-8
encoding of the runes of the input, as a `range` loop reads them (every byte that does
not start a valid encoding is read as U+FFFD), with every span running from a `<` through
the next `>` removed (an unclosed `<` removes everything after it) and with every rune
outside such spans kept, in order, except the `>` runes: a `>` outside a span is removed
too.  The loop ends: more fuel than `len(input)` changes nothing.  On valid UTF-8 (the
bytes of a rune sequence `text`) the runes read are those of the text, so the result is
the text with the spans and the `>` runes removed. -/
theorem stripTags_eq_removeSpans_filter (input : Bytes) :
    stripTags input =
      encodeString
        ((removeSpans false (rangeRunes input.length input)).filter (fun c => c != '>')) ∧
    (∀ fuel : Nat, input.length ≤ fuel →
      stripLoop fuel input false [] = stripTags input) ∧
    ∀ text : Str,
      rangeRunes (encodeString text).length (encodeString text) = text ∧
      stripTags (encodeString text) =
        encodeString ((removeSpans false text).filter (fun c => c != '>')) ∧
      stripTags (encodeString text) = encodeString (stripTagsText text) := by
  have hloop : ∀ (fuel : Nat) (s : Bytes),
      stripLoop fuel s false [] = encodeString (stripRunes (rangeRunes fuel s) false []) := by
    intro fuel s
    have := stripLoop_eq_stripRunes fuel s false []
    simpa [encodeString] using this
  refine ⟨?_, ?_, ?_⟩
  · unfold stripTags
    rw [hloop, stripRunes_eq]
    rfl
  · intro fuel hfuel
    unfold stripTags
    rw [hloop, hloop, rangeRunes_fuel fuel input.length input hfuel (le_refl _)]
  · intro text
    have hr := rangeRunes_encodeString text _ (le_refl _)
    refine ⟨hr, ?_, ?_⟩
    · unfold stripTags
      rw [hloop, hr, stripRunes_eq]
      rfl
    · unfold stripTags
      rw [hloop, hr]
      rfl

/-- The occurrence found by `findLit` is the first one: `lit` starts at no earlier
position. -/
theorem findLit_first (lit : Str) :
    ∀ s before r : Str, findLit lit s = some (before, r) →
      ∀ x y z : Str, before = x ++ y → y ≠ [] → y ++ lit ++ r ≠ lit ++ z := by
  intro s
  induction s with
  | nil =>
    intro before r h x y z hxy hy
    simp only [findLit, Option.map_eq_some'] at h
    obtain ⟨_, _, h2⟩ := h
    simp only [Prod.mk.injEq] at h2
    rw [← h2.1] at hxy
    exact absurd (List.append_eq_nil.mp hxy.symm).2 hy
  | cons c s ih =>
    intro before r h x y z hxy hy
    rw [findLit] at h
    cases hd : dropLit lit (c :: s) with
    | some r1 =>
      rw [hd] at h
      simp only [Option.some.injEq, Prod.mk.injEq] at h
      rw [← h.1] at hxy
      exact absurd (List.append_eq_nil.mp hxy.symm).2 hy
    | none =>
      rw [hd] at h
      cases hf : findLit lit s with
      | none => rw [hf] at h; simp at h
      | some br =>
        obtain ⟨b1, r1⟩ := br
        rw [hf] at h
        simp only [Option.some.injEq, Prod.mk.injEq] at h
        obtain ⟨h1, h2⟩ := h
        subst h1; subst h2
        have hs : s = b1 ++ lit ++ r1 := by
          by_cases hlit : lit = []
          · subst hlit
            simp [dropLit] at hd
          · exact (findLit_some lit hlit s b1 r1 hf).1
        cases x with
        | nil =>
          simp only [List.nil_append] at hxy
          intro hcon
          have : dropLit lit (c :: s) = some z := by
            rw [dropLit_eq_some, ← hcon, ← hxy, hs]
            simp
          rw [hd] at this
          exact absurd this (by simp)
        | cons x0 x =>
          simp only [List.cons_append, List.cons.injEq] at hxy
          exact ih b1 r1 hf x y z hxy.2 hy

/-- The title of a match of the marker pattern ends at the first `</h3>`. -/
theorem matchMarkerAt_first (s a t r : Str) (h : matchMarkerAt s = some (a, t, r)) :
    FirstClose t r := by
  unfold matchMarkerAt at h
  cases h1 : dropLit openLit s with
  | none => rw [h1] at h; simp at h
  | some r1 =>
    rw [h1] at h
    simp only [] at h
    by_cases ha : r1.takeWhile (fun c => c != '"') = []
    · rw [if_pos ha] at h; simp at h
    · rw [if_neg ha] at h
      cases h2 : dropLit midLit (r1.dropWhile (fun c => c != '"')) with
      | none => rw [h2] at h; simp at h
      | some r2 =>
        rw [h2] at h
        simp only [] at h
        cases h3 : findLit closeLit r2 with
        | none => rw [h3] at h; simp at h
        | some tr =>
          obtain ⟨t1, rest⟩ := tr
          rw [h3] at h
          simp at h
          obtain ⟨_, e2, e3⟩ := h
          subst e2; subst e3
          exact findLit_first closeLit r2 t1 rest h3

/-- A marker starts at the beginning of a text exactly when the marker pattern matches
there. -/
theorem startsMarker_iff (s : Str) : StartsMarker s ↔ matchMarkerAt s ≠ none := by
  constructor
  · rintro ⟨a, t, post, ha, hq, e⟩
    rw [e]
    exact matchMarkerAt_complete a t post ha hq
  · intro h
    cases hm : matchMarkerAt s with
    | none => exact absurd hm h
    | some x =>
      obtain ⟨a, t, r⟩ := x
      obtain ⟨f1, f2, f3, _⟩ := matchMarkerAt_sound s a t r hm
      exact ⟨a, t, r, f2, f3, f1⟩

/-- The match found by `findNext` is the leftmost one: no marker starts inside the gap
before it; and its title ends at the first `</h3>`. -/
theorem findNext_first (s : Str) :
    ∀ g a t r : Str, findNext s = some (g, a, t, r) →
      FirstClose t r ∧
        ∀ pre x : Str, g = pre ++ x → x ≠ [] → ¬ StartsMarker (x ++ markerText a t ++ r) := by
  induction s with
  | nil => intro g a t r h; simp [findNext] at h
  | cons c s ih =>
    intro g a t r h
    rw [findNext] at h
    cases hm : matchMarkerAt (c :: s) with
    | some x =>
      obtain ⟨a1, t1, r1⟩ := x
      rw [hm] at h
      simp at h
      obtain ⟨e1, e2, e3, e4⟩ := h
      subst e1; subst e2; subst e3; subst e4
      refine ⟨matchMarkerAt_first _ _ _ _ hm, ?_⟩
      intro pre x hpx hx
      exact absurd (List.append_eq_nil.mp hpx.symm).2 hx
    | none =>
      rw [hm] at h
      cases hf : findNext s with
      | none => rw [hf] at h; simp at h
      | some y =>
        obtain ⟨g1, a1, t1, r1⟩ := y
        rw [hf] at h
        simp at h
        obtain ⟨e1, e2, e3, e4⟩ := h
        subst e1; subst e2; subst e3; subst e4
        obtain ⟨f1, f2⟩ := ih _ _ _ _ hf
        have hs := (findNext_some s _ _ _ _ hf).1
        refine ⟨f1, ?_⟩
        intro pre x hpx hx
        cases pre with
        | nil =>
          simp only [List.nil_append] at hpx
          rw [← hpx]
          intro hst
          have : c :: s = c :: g1 ++ markerText a1 t1 ++ r1 := by rw [hs]; simp
          rw [← this] at hst
          exact (startsMarker_iff _).mp hst hm
        | cons p pre =>
          simp only [List.cons_append, List.cons.injEq] at hpx
          exact f2 pre x hpx.2 hx

/-- The chapter loop run on the matches found in `s`, the part of the document after the
text `done`: the matches are those of the leftmost-first split of `s` into a gap and
segments (a marker and its body), one match per segment, the first match starts after the
gap, and the loop appends the chapter of each segment. -/
theorem chaptersLoop_findAll (ent : Str → Str) :
    ∀ (fuel : Nat) (s done : Str), s.length < fuel →
      ∃ (gap : Str) (ms : List (Str × Str × Str)),
        s = gap ++ (ms.map segmentText).flatten ∧
        LeftmostSplit ms s gap ∧
        (findAllLoop fuel done.length s).length = ms.length ∧
        (∀ m, (findAllLoop fuel done.length s).head? = some m →
          m.m0 = done.length + gap.length) ∧
        ∀ acc : List Chapter,
          chaptersLoop ent (done ++ s) (findAllLoop fuel done.length s) acc =
            acc ++ ms.map (segmentChapter ent) := by
  intro fuel
  induction fuel with
  | zero => intro s done h; omega
  | succ fuel ih =>
    intro s done h
    rw [findAllLoop]
    cases hf : findNext s with
    | none =>
      exact ⟨s, [], by simp, ⟨rfl, findNext_none s hf⟩, by simp, by simp,
        by intro acc; simp [chaptersLoop]⟩
    | some x =>
      obtain ⟨g, a, t, rest⟩ := x
      obtain ⟨e, ha, hq, ht, hg⟩ := findNext_some s g a t rest hf
      have hmt := markerText_length a t
      have hopen : openLit.length = 13 := by decide
      have hlen : rest.length < fuel := by
        have := congrArg List.length e
        simp only [List.length_append] at this
        omega
      have hm1 : done.length + g.length + openLit.length + a.length + midLit.length + t.length
          + closeLit.length = (done ++ g ++ markerText a t).length := by
        simp only [List.length_append]
        omega
      obtain ⟨hfirst, hleft⟩ := findNext_first s g a t rest hf
      obtain ⟨gap2, ms2, e2, hsplit2, hl2, hh2, hc2⟩ :=
        ih rest (done ++ g ++ markerText a t) hlen
      have hdata : done ++ s = done ++ g ++ markerText a t ++ rest := by
        rw [e]; simp [List.append_assoc]
      rw [← hdata] at hc2
      generalize hp : (done ++ g ++ markerText a t).length = p at hl2 hh2 hc2 hm1
      simp only []
      rw [hm1]
      refine ⟨g, (a, t, gap2) :: ms2, ?_, ?_, ?_, ?_, ?_⟩
      · rw [e, e2]
        simp [segmentText, List.append_assoc]
      · exact ⟨rest, e, ha, hq, hfirst, hleft, hsplit2⟩
      · rw [List.length_cons, List.length_cons, hl2]
      · intro m hm
        simp only [List.head?_cons, Option.some.injEq] at hm
        rw [← hm]
      · intro acc
        have hA : slice (done ++ s) (done.length + g.length + openLit.length)
            (done.length + g.length + openLit.length + a.length) = a := by
          have : done ++ s = (done ++ g ++ openLit) ++ a ++ (midLit ++ t ++ closeLit ++ rest) := by
            rw [e]; simp [markerText, List.append_assoc]
          rw [this]
          exact slice_middle _ _ _ _ _ (by simp only [List.length_append])
            (by simp only [List.length_append])
        have hT : slice (done ++ s)
            (done.length + g.length + openLit.length + a.length + midLit.length)
            (done.length + g.length + openLit.length + a.length + midLit.length + t.length)
              = t := by
          have : done ++ s = (done ++ g ++ openLit ++ a ++ midLit) ++ t ++ (closeLit ++ rest) := by
            rw [e]; simp [markerText, List.append_assoc]
          rw [this]
          exact slice_middle _ _ _ _ _ (by simp only [List.length_append])
            (by simp only [List.length_append])
        have hstop : (match findAllLoop fuel p rest with
            | [] => (done ++ s).length
            | next :: _ => next.m0) = p + gap2.length := by
          cases hfa : findAllLoop fuel p rest with
          | nil =>
            rw [hfa] at hl2
            have hms : ms2 = [] := List.length_eq_zero.mp (by simpa using hl2.symm)
            rw [hms] at e2
            simp only [List.map_nil, List.flatten_nil, List.append_nil] at e2
            simp only []
            rw [hdata, List.length_append, hp, e2]
          | cons n ns =>
            rw [hfa] at hh2
            exact hh2 n (by simp)
        have hC : slice (done ++ s) p (p + gap2.length) = gap2 := by
          have : done ++ s = (done ++ g ++ markerText a t) ++ gap2
              ++ (ms2.map segmentText).flatten := by
            rw [hdata, e2]; simp [List.append_assoc]
          rw [this]
          exact slice_middle _ _ _ _ _ hp.symm (by rw [hp])
        simp only [chaptersLoop]
        rw [hA, hT, hstop, hC]
        have := hc2 (acc ++ [segmentChapter ent (a, t, gap2)])
        simp only [segmentChapter] at this ⊢
        rw [this]
        simp [segmentChapter]


/-- A leftmost-first split cuts the text into its gap and its segments. -/
theorem leftmostSplit_text (ms : List (Str × Str × Str)) :
    ∀ s gap : Str, LeftmostSplit ms s gap → s = gap ++ (ms.map segmentText).flatten := by
  induction ms with
  | nil => intro s gap h; simpa using h.1
  | cons m ms ih =>
    intro s gap h
    obtain ⟨a, t, body⟩ := m
    obtain ⟨r, e, _, _, _, _, hrest⟩ := h
    rw [e, ih r body hrest]
    simp [segmentText, List.append_assoc]

theorem leftmostSplit_cons_contains (m : Str × Str × Str) (ms : List (Str × Str × Str))
    (s gap : Str) (h : LeftmostSplit (m :: ms) s gap) : ContainsMarker s := by
  obtain ⟨a, t, body⟩ := m
  obtain ⟨r, e, ha, hq, _, _, _⟩ := h
  exact ⟨gap, a, t, r, ha, hq, e⟩

/-- The anchor of a marker is determined by the text: it runs to the next `"`. -/
theorem anchor_unique (a b x y : Str) (ha : ∀ c ∈ a, c ≠ '"') (hb : ∀ c ∈ b, c ≠ '"')
    (h : a ++ (midLit ++ x) = b ++ (midLit ++ y)) : a = b ∧ x = y := by
  have hpa : ∀ c ∈ a, (fun c => c != '"') c = true := by
    intro c hc; simpa using ha c hc
  have hpb : ∀ c ∈ b, (fun c => c != '"') c = true := by
    intro c hc; simpa using hb c hc
  have h1 : (a ++ (midLit ++ x)).takeWhile (fun c => c != '"') = a := by
    rw [List.takeWhile_append_of_pos hpa]; simp [midLit]
  have h2 : (b ++ (midLit ++ y)).takeWhile (fun c => c != '"') = b := by
    rw [List.takeWhile_append_of_pos hpb]; simp [midLit]
  have hab : a = b := by rw [← h1, ← h2, h]
  subst hab
  have := List.append_cancel_left h
  exact ⟨rfl, List.append_cancel_left this⟩

/-- The title of a marker is determined by the text: it runs to the first `</h3>`. -/
theorem title_unique (t r t2 r2 : Str) (h1 : FirstClose t r) (h2 : FirstClose t2 r2)
    (h : t ++ (closeLit ++ r) = t2 ++ (closeLit ++ r2)) : t = t2 ∧ r = r2 := by
  rcases List.append_eq_append_iff.mp h with ⟨y, e1, e2⟩ | ⟨y, e1, e2⟩
  · by_cases hy : y = []
    · subst hy
      simp only [List.append_nil, List.nil_append] at e1 e2
      exact ⟨e1.symm, List.append_cancel_left e2⟩
    · exfalso
      exact h2 t y r e1 hy (by rw [e2]; simp)
  · by_cases hy : y = []
    · subst hy
      simp only [List.append_nil, List.nil_append] at e1 e2
      exact ⟨e1, (List.append_cancel_left e2).symm⟩
    · exfalso
      exact h1 t2 y r2 e1 hy (by rw [e2]; simp)

/-- The leftmost-first split of a text is unique. -/
theorem leftmostSplit_unique (ms : List (Str × Str × Str)) :
    ∀ (ms2 : List (Str × Str × Str)) (s gap gap2 : Str),
      LeftmostSplit ms s gap → LeftmostSplit ms2 s gap2 → gap = gap2 ∧ ms = ms2 := by
  induction ms with
  | nil =>
    intro ms2 s gap gap2 h1 h2
    cases ms2 with
    | nil => exact ⟨by rw [← h1.1, ← h2.1], rfl⟩
    | cons m ms2 => exact absurd (leftmostSplit_cons_contains m ms2 s gap2 h2) h1.2
  | cons m ms ih =>
    intro ms2 s gap gap2 h1 h2
    cases ms2 with
    | nil => exact absurd (leftmostSplit_cons_contains m ms s gap h1) h2.2
    | cons m2 ms2 =>
      obtain ⟨a, t, body⟩ := m
      obtain ⟨a2, t2, body2⟩ := m2
      obtain ⟨r, e, ha, hq, hf, hl, hrest⟩ := h1
      obtain ⟨r2, e2, ha2, hq2, hf2, hl2, hrest2⟩ := h2
      have hst : StartsMarker (markerText a t ++ r) := ⟨a, t, r, ha, hq, rfl⟩
      have hst2 : StartsMarker (markerText a2 t2 ++ r2) := ⟨a2, t2, r2, ha2, hq2, rfl⟩
      have hs : gap ++ (markerText a t ++ r) = gap2 ++ (markerText a2 t2 ++ r2) := by
        rw [← List.append_assoc, ← List.append_assoc, ← e, ← e2]
      have hgap : gap = gap2 ∧ markerText a t ++ r = markerText a2 t2 ++ r2 := by
        rcases List.append_eq_append_iff.mp hs with ⟨y, e3, e4⟩ | ⟨y, e3, e4⟩
        · by_cases hy : y = []
          · subst hy
            simp only [List.append_nil, List.nil_append] at e3 e4
            exact ⟨e3.symm, e4⟩
          · exfalso
            apply hl2 gap y e3 hy
            rw [List.append_assoc, ← e4]
            exact hst
        · by_cases hy : y = []
          · subst hy
            simp only [List.append_nil, List.nil_append] at e3 e4
            exact ⟨e3, e4.symm⟩
          · exfalso
            apply hl gap2 y e3 hy
            rw [List.append_assoc, ← e4]
            exact hst2
      obtain ⟨hg, hm⟩ := hgap
      simp only [markerText, List.append_assoc] at hm
      have hm2 := List.append_cancel_left hm
      obtain ⟨hab, hm3⟩ := anchor_unique a a2 _ _ hq hq2 hm2
      obtain ⟨htt, hrr⟩ := title_unique t r t2 r2 hf hf2 hm3
      subst hab; subst htt; subst hrr
      obtain ⟨hbody, hms⟩ := ih ms2 r body body2 hrest hrest2
      subst hbody; subst hms
      exact ⟨hg, rfl⟩

/-- **C7 as stated fails.** The document
`<h3><a name="x"></a>A<h3><a name="y"></a>B</h3>body` contains two markers: one with
anchor `x`, at the start, and `<h3><a name="y"></a>B</h3>`, after the text
`<h3><a name="x"></a>A`.  The extraction returns a single chapter, with anchor `x` and
title `AB`: the second marker starts inside the title of the first match and gets no
chapter. -/
theorem loadChapters_nested_marker :
    nestedDoc =
        markerText "x".toList "A<h3><a name=\"y\"></a>B".toList ++ "body".toList ∧
      nestedDoc =
        "<h3><a name=\"x\"></a>A".toList ++ markerText "y".toList "B".toList ++ "body".toList ∧
      ∀ ent : Str → Str,
        loadChaptersFrom ent nestedDoc =
          Except.ok [⟨"AB".toList, "x".toList, "body".toList, 0⟩] :=
  ⟨by rfl, by rfl, fun _ => by rfl⟩

/-- **C7, amended.** Chapter extraction fails with the no-chapters error exactly when the
document contains no marker `<h3><a name="ANCHOR"></a>TITLE</h3>` (ANCHOR not empty and
without `"`).  The document has exactly one leftmost-first split: a gap followed by the
successive marker matches, scanning from the left without overlap, each with the text up
to the next match or to the end of the document (`LeftmostSplit`); any such split is the
one the code uses.  When the split has no match the extraction fails; otherwise it
returns one chapter per match, in document order, with `Anchor = ANCHOR`,
`Title = cleanInlineText(TITLE)` and `Text = cleanHTMLToText(body)`.  The two-marker
document of the scenario gives the titles `One`, `Two` and the texts `Hello world.`,
`Bye.`. -/
theorem loadChapters_markers (ent : Str → Str) (doc : Str) :
    (loadChaptersFrom ent doc = Except.error noChaptersError ↔ ¬ ContainsMarker doc) ∧
    (∃ (gap : Str) (ms : List (Str × Str × Str)), LeftmostSplit ms doc gap) ∧
    (∀ (gap : Str) (ms : List (Str × Str × Str)), LeftmostSplit ms doc gap →
      doc = gap ++ (ms.map segmentText).flatten ∧
      (ms = [] ↔ ¬ ContainsMarker doc) ∧
      (ms = [] → loadChaptersFrom ent doc = Except.error noChaptersError) ∧
      (ms ≠ [] → loadChaptersFrom ent doc = Except.ok (ms.map (segmentChapter ent)))) ∧
    loadChaptersFrom ent twoMarkerDoc =
      Except.ok [⟨"One".toList, "c1".toList, "Hello world.".toList, 0⟩,
        ⟨"Two".toList, "c2".toList, "Bye.".toList, 0⟩] := by
  obtain ⟨gap, ms, e, hsplit, hl, _, hc⟩ :=
    chaptersLoop_findAll ent (doc.length + 1) doc [] (by omega)
  have hfound : findAllSubmatchIndex doc = findAllLoop (doc.length + 1) 0 doc := rfl
  have hc0 := hc []
  simp only [List.nil_append, List.length_nil] at hc0 hl
  have hnil : ms = [] →
      ¬ ContainsMarker doc ∧ loadChaptersFrom ent doc = Except.error noChaptersError := by
    intro hms
    rw [hms] at hsplit hl
    refine ⟨hsplit.2, ?_⟩
    unfold loadChaptersFrom
    simp only [hfound]
    rw [if_pos (by simpa using hl)]
  have hcons : ms ≠ [] →
      ContainsMarker doc ∧
        loadChaptersFrom ent doc = Except.ok (ms.map (segmentChapter ent)) := by
    intro hms
    constructor
    · cases ms with
      | nil => exact absurd rfl hms
      | cons m rest => exact leftmostSplit_cons_contains m rest doc gap hsplit
    · unfold loadChaptersFrom
      simp only [hfound]
      have hne : ¬ (findAllLoop (doc.length + 1) 0 doc).length = 0 := by
        rw [hl]
        intro h0
        exact hms (List.length_eq_zero.mp h0)
      rw [if_neg hne, hc0]
  refine ⟨?_, ⟨gap, ms, hsplit⟩, ?_, by rfl⟩
  · constructor
    · intro herr
      by_cases hms : ms = []
      · exact (hnil hms).1
      · rw [(hcons hms).2] at herr
        exact absurd herr (by simp)
    · intro hno
      by_cases hms : ms = []
      · exact (hnil hms).2
      · exact absurd (hcons hms).1 hno
  · intro gap2 ms2 hsplit2
    obtain ⟨hg, hm⟩ := leftmostSplit_unique ms2 ms doc gap2 gap hsplit2 hsplit
    subst hg; subst hm
    refine ⟨e, ?_, fun h => (hnil h).2, fun h => (hcons h).2⟩
    constructor
    · intro h; exact (hnil h).1
    · intro hno
      by_contra hms
      exact hno (hcons hms).1

/-- The scenario of C7: the two-marker document contains a marker, it has a
leftmost-first split, and the chapters of that split are those of the scenario. -/
theorem loadChapters_markers_witness :
    ContainsMarker twoMarkerDoc ∧
    ∃ (gap : Str) (ms : List (Str × Str × Str)),
      LeftmostSplit ms twoMarkerDoc gap ∧ ms ≠ [] ∧
      ms.map (segmentChapter id) =
        [⟨"One".toList, "c1".toList, "Hello world.".toList, 0⟩,
          ⟨"Two".toList, "c2".toList, "Bye.".toList, 0⟩] := by
  have hcm : ContainsMarker twoMarkerDoc :=
    ⟨[], "c1".toList, "One".toList,
      "Hello   world.<h3><a name=\"c2\"></a>Two</h3>Bye.".toList, by decide, by decide, by rfl⟩
  obtain ⟨_, ⟨gap, ms, hsplit⟩, hall, hscen⟩ := loadChapters_markers id twoMarkerDoc
  obtain ⟨_, hiff, _, hok⟩ := hall gap ms hsplit
  have hms : ms ≠ [] := fun h => (hiff.mp h) hcm
  have := hok hms
  rw [hscen] at this
  exact ⟨hcm, gap, ms, hsplit, hms, (Except.ok.inj this).symm⟩

end Quijote
